import Mathlib

/-!
Verification of the k-connectivity engine of `graphe5`
(`src/graph_connectivity.py`, class `GraphConnectivityAnalyzer`).

The Python code wraps the `networkx` library.  We embed:
  * the graph object built by `nx.Graph()` / `nx.DiGraph()` plus
    `add_edges_from` as `PyGraph` (nodes and edges in insertion order,
    set semantics for duplicates, self-loops permitted, exactly as in
    networkx);
  * the networkx routines the analyzer calls, by their documented
    semantics (`nx.is_connected` raises `NetworkXNotImplemented` on a
    directed graph and `NetworkXPointlessConcept` on the null graph;
    `nx.node_connectivity` / `nx.edge_connectivity` return the minimum
    number of vertices / edges whose removal disconnects the graph;
    the minimum-cut routines return such a set of minimum size);
  * the analyzer itself as explicit state passing over its mutable
    fields (`graph`, `analysis_cache`, `connectivity_results`), with
    Python exceptions as `Except`.
-/

deriving instance DecidableEq for Except

namespace Graphe5

/-- A networkx graph as built by the analyzer: a directedness flag, the
node list in insertion order (no duplicates), and the edge list in
insertion order (set semantics; for an undirected graph an edge is
stored under the orientation first inserted). -/
structure PyGraph where
  directed : Bool
  nodes : List Nat
  edges : List (Nat × Nat)
  deriving DecidableEq

namespace PyGraph

/-- `G.number_of_nodes()`. -/
def number_of_nodes (g : PyGraph) : Nat := g.nodes.length

/-- `G.number_of_edges()`. -/
def number_of_edges (g : PyGraph) : Nat := g.edges.length

/-- The vertex set of the graph. -/
def nodeFinset (g : PyGraph) : Finset Nat := g.nodes.toFinset

/-- The edge set of the graph (pairs as stored). -/
def edgeFinset (g : PyGraph) : Finset (Nat × Nat) := g.edges.toFinset

/-- Membership test used by `add_edge`: in an undirected graph the edge
`(u, v)` is present under either orientation; in a directed graph only
under its own orientation. -/
def hasEdge (g : PyGraph) (u v : Nat) : Bool :=
  if g.directed then decide ((u, v) ∈ g.edges)
  else decide ((u, v) ∈ g.edges) || decide ((v, u) ∈ g.edges)

/-- `G.add_node(v)`: appends `v` to the node list when absent. -/
def add_node (g : PyGraph) (v : Nat) : PyGraph :=
  if v ∈ g.nodes then g else { g with nodes := g.nodes ++ [v] }

/-- `G.add_edge(u, v)`: inserts the endpoints, then the edge unless it
is already present (networkx silently merges duplicates and accepts
self-loops). -/
def add_edge (g : PyGraph) (u v : Nat) : PyGraph :=
  if hasEdge ((g.add_node u).add_node v) u v then (g.add_node u).add_node v
  else { (g.add_node u).add_node v with
         edges := ((g.add_node u).add_node v).edges ++ [(u, v)] }

/-- `G.add_edges_from(es)`. -/
def add_edges_from (g : PyGraph) (es : List (Nat × Nat)) : PyGraph :=
  es.foldl (fun h e => h.add_edge e.1 e.2) g

/-- `nx.Graph()` or `nx.DiGraph()`: the empty graph. -/
def emptyGraph (directed : Bool) : PyGraph := ⟨directed, [], []⟩

/-- The graph built by the analyzer's `create_graph_from_edges` body:
a fresh (di)graph populated by `add_edges_from`. -/
def buildGraph (edges : List (Nat × Nat)) (directed : Bool) : PyGraph :=
  (emptyGraph directed).add_edges_from edges

/-- `survives g F u v`: the unordered pair `{u, v}` is an edge of `g`
(in either stored orientation, matching traversal that ignores
direction) and has not been deleted by the edge set `F` (deleting an
edge removes both orientations, the symmetric removal semantics of an
undirected graph). -/
def survives (g : PyGraph) (F : Finset (Nat × Nat)) (u v : Nat) : Prop :=
  ((u, v) ∈ g.edges ∨ (v, u) ∈ g.edges) ∧ (u, v) ∉ F ∧ (v, u) ∉ F

instance (g : PyGraph) (F : Finset (Nat × Nat)) (u v : Nat) :
    Decidable (survives g F u v) := by
  unfold survives; infer_instance

theorem survives_symm {g : PyGraph} {F : Finset (Nat × Nat)} {u v : Nat}
    (h : survives g F u v) : survives g F v u :=
  ⟨h.1.symm, h.2.2, h.2.1⟩

/-- One traversal step inside the active vertex set `act`, after the
edges in `F` have been removed: both endpoints live, are distinct, and
joined by a surviving edge. -/
def stepRel (g : PyGraph) (act : Finset Nat) (F : Finset (Nat × Nat))
    (u v : Nat) : Prop :=
  u ∈ act ∧ v ∈ act ∧ u ≠ v ∧ survives g F u v

instance (g : PyGraph) (act : Finset Nat) (F : Finset (Nat × Nat)) (u v : Nat) :
    Decidable (stepRel g act F u v) := by
  unfold stepRel; infer_instance

theorem stepRel_symm {g : PyGraph} {act : Finset Nat} {F : Finset (Nat × Nat)}
    {u v : Nat} (h : stepRel g act F u v) : stepRel g act F v u :=
  ⟨h.2.1, h.1, h.2.2.1.symm, survives_symm h.2.2.2⟩

/-- Reachability inside the active set `act` with the edges of `F`
removed. -/
def Reach (g : PyGraph) (act : Finset Nat) (F : Finset (Nat × Nat)) :
    Nat → Nat → Prop :=
  Relation.ReflTransGen (stepRel g act F)

theorem reach_symm {g : PyGraph} {act : Finset Nat} {F : Finset (Nat × Nat)}
    {u v : Nat} (h : Reach g act F u v) : Reach g act F v u :=
  Relation.ReflTransGen.symmetric (fun _ _ hs => stepRel_symm hs) h

/-- Connectedness of the graph induced on `act` after removing the
edges of `F` (the notion decided by a breadth-first traversal
ignoring edge direction). -/
def connOn (g : PyGraph) (act : Finset Nat) (F : Finset (Nat × Nat)) : Prop :=
  act.Nonempty ∧ ∀ u ∈ act, ∀ v ∈ act, Reach g act F u v

/-- The simple graph on the vertices of `act` induced by the surviving
edges, used to decide `connOn`. -/
def pySimple (g : PyGraph) (act : Finset Nat) (F : Finset (Nat × Nat)) :
    SimpleGraph {x : Nat // x ∈ act} where
  Adj a b := stepRel g act F a.val b.val
  symm := fun _ _ h => stepRel_symm h
  loopless := fun _ h => h.2.2.1 rfl

instance (g : PyGraph) (act : Finset Nat) (F : Finset (Nat × Nat)) :
    DecidableRel (pySimple g act F).Adj := fun a b =>
  inferInstanceAs (Decidable (stepRel g act F a.val b.val))

theorem reach_of_reachable {g : PyGraph} {act : Finset Nat}
    {F : Finset (Nat × Nat)} {u v : {x : Nat // x ∈ act}}
    (h : (pySimple g act F).Reachable u v) : Reach g act F u.val v.val := by
  obtain ⟨w⟩ := h
  induction w with
  | nil => exact Relation.ReflTransGen.refl
  | cons hadj _ ih => exact Relation.ReflTransGen.head hadj ih

theorem reachable_of_reach {g : PyGraph} {act : Finset Nat}
    {F : Finset (Nat × Nat)} {u v : Nat} (h : Reach g act F u v) :
    ∀ (hu : u ∈ act) (hv : v ∈ act),
      (pySimple g act F).Reachable ⟨u, hu⟩ ⟨v, hv⟩ := by
  induction h with
  | refl => intro hu hv; exact SimpleGraph.Reachable.refl _
  | tail _ hstep ih =>
      intro hu hv
      exact (ih hu hstep.1).trans
        (SimpleGraph.Adj.reachable (G := pySimple g act F)
          (show stepRel g act F _ _ from hstep))

theorem connOn_iff (g : PyGraph) (act : Finset Nat) (F : Finset (Nat × Nat)) :
    connOn g act F ↔ (pySimple g act F).Connected := by
  rw [SimpleGraph.connected_iff]
  constructor
  · rintro ⟨⟨a, ha⟩, hall⟩
    refine ⟨fun u v => ?_, ⟨⟨a, ha⟩⟩⟩
    exact reachable_of_reach (hall u.val u.2 v.val v.2) u.2 v.2
  · rintro ⟨hpre, ⟨x⟩⟩
    refine ⟨⟨x.val, x.2⟩, fun u hu v hv => ?_⟩
    exact reach_of_reachable (hpre ⟨u, hu⟩ ⟨v, hv⟩)

theorem reach_mem_right {g : PyGraph} {act : Finset Nat}
    {F : Finset (Nat × Nat)} {u v : Nat} (h : Reach g act F u v)
    (hne : u ≠ v) : v ∈ act := by
  induction h with
  | refl => exact absurd rfl hne
  | tail _ hstep _ => exact hstep.2.1

theorem reach_mem_left {g : PyGraph} {act : Finset Nat}
    {F : Finset (Nat × Nat)} {u v : Nat} (h : Reach g act F u v)
    (hne : u ≠ v) : u ∈ act := by
  rcases Relation.ReflTransGen.cases_head h with he | ⟨c, hc, _⟩
  · exact absurd he hne
  · exact hc.1

instance (g : PyGraph) (act : Finset Nat) (F : Finset (Nat × Nat))
    (u v : Nat) : Decidable (Reach g act F u v) :=
  if he : u = v then isTrue (he ▸ Relation.ReflTransGen.refl)
  else
    if hu : u ∈ act then
      if hv : v ∈ act then
        decidable_of_iff ((pySimple g act F).Reachable ⟨u, hu⟩ ⟨v, hv⟩)
          ⟨fun h => reach_of_reachable h,
           fun h => reachable_of_reach h hu hv⟩
      else isFalse (fun h => hv (reach_mem_right h he))
    else isFalse (fun h => hu (reach_mem_left h he))

instance (g : PyGraph) (act : Finset Nat) (F : Finset (Nat × Nat)) :
    Decidable (connOn g act F) := by
  unfold connOn; infer_instance

/-- A vertex set `S` "settles" the graph when the graph induced on the
remaining vertices is disconnected or has at most one vertex: the
defining condition of the vertex connectivity number. -/
def settles (g : PyGraph) (S : Finset Nat) : Prop :=
  ¬ connOn g (g.nodeFinset \ S) ∅ ∨ (g.nodeFinset \ S).card ≤ 1

instance (g : PyGraph) (S : Finset Nat) : Decidable (settles g S) := by
  unfold settles; infer_instance

/-- All vertex subsets whose removal disconnects or trivializes `g`. -/
def settlingSets (g : PyGraph) : Finset (Finset Nat) :=
  g.nodeFinset.powerset.filter (fun S => settles g S)

/-- The edge subsets whose removal disconnects `g`. -/
def edgeCutCandidates (g : PyGraph) : Finset (Finset (Nat × Nat)) :=
  g.edgeFinset.powerset.filter (fun F => ¬ connOn g g.nodeFinset F)

/-- The vertex subsets whose removal genuinely disconnects `g`
(leaving at least two mutually unreachable vertices). -/
def nodeCutCandidates (g : PyGraph) : Finset (Finset Nat) :=
  g.nodeFinset.powerset.filter (fun S => ¬ connOn g (g.nodeFinset \ S) ∅)

/-- The vertex connectivity number κ(G): the least size of a vertex
subset whose removal disconnects the graph or leaves at most one
vertex.  This is the value documented for `nx.node_connectivity`. -/
def kappa (g : PyGraph) : Nat :=
  if h : (settlingSets g).Nonempty then
    ((settlingSets g).image Finset.card).min' (h.image _)
  else 0

/-- The edge connectivity number λ(G): the least size of an edge subset
whose removal disconnects the graph (0 when no such subset exists).
This is the value documented for `nx.edge_connectivity`. -/
def lambda (g : PyGraph) : Nat :=
  if h : (edgeCutCandidates g).Nonempty then
    ((edgeCutCandidates g).image Finset.card).min' (h.image _)
  else 0

/-- The degree of a vertex: the number of vertices joined to it by an
edge (for a simple graph this is the networkx degree). -/
def degree (g : PyGraph) (v : Nat) : Nat :=
  (g.nodeFinset.filter (fun u => u ≠ v ∧ survives g ∅ u v)).card

/-- The minimum degree of the graph (0 for the empty graph). -/
def minDegree (g : PyGraph) : Nat :=
  if h : (g.nodeFinset.image (degree g)).Nonempty then
    (g.nodeFinset.image (degree g)).min' h
  else 0

end PyGraph

/-- The exceptions of the networkx calls that the analyzer triggers:
`NetworkXNotImplemented` (raised by `nx.is_connected` on a directed
graph), `NetworkXPointlessConcept` (raised on the null graph), and the
`AttributeError` raised by the attribute access `nx.is_complete_graph`,
a function that does not exist in networkx. -/
inductive NxErr where
  | notImplementedForDirected
  | pointlessConcept
  | attributeError
  deriving DecidableEq

namespace nx

open PyGraph

/-- `nx.is_connected(G)`: raises `NetworkXNotImplemented` for directed
graphs and `NetworkXPointlessConcept` for the null graph, otherwise
decides connectivity by traversal. -/
def is_connected (g : PyGraph) : Except NxErr Bool :=
  if g.directed then .error .notImplementedForDirected
  else if g.nodes.length = 0 then .error .pointlessConcept
  else .ok (decide (connOn g g.nodeFinset ∅))

/-- The expression `nx.is_complete_graph(G)` as the analyzer evaluates
it: networkx has no function of this name, so the attribute access
itself raises `AttributeError` on every call (lines 107 and 161 of the
source; the surrounding `except` blocks catch it). -/
def is_complete_graph (_g : PyGraph) : Except NxErr Bool :=
  .error .attributeError

/-- `nx.node_connectivity(G)`: the vertex connectivity number. -/
def node_connectivity (g : PyGraph) : Nat := kappa g

/-- `nx.edge_connectivity(G)`: the edge connectivity number. -/
def edge_connectivity (g : PyGraph) : Nat := lambda g

/-- `nx.minimum_node_cut(G)`: some vertex cut of minimum size (the
first subset of the node list of size κ(G) whose removal disconnects
the graph, in sublist enumeration order). -/
def minimum_node_cut (g : PyGraph) : Finset Nat :=
  ((g.nodes.sublists.map List.toFinset).find?
    (fun S => decide (S.card = kappa g ∧ ¬ connOn g (g.nodeFinset \ S) ∅))).getD ∅

/-- `nx.minimum_edge_cut(G)`: some edge cut of minimum size. -/
def minimum_edge_cut (g : PyGraph) : Finset (Nat × Nat) :=
  ((g.edges.sublists.map List.toFinset).find?
    (fun F => decide (F.card = lambda g ∧ ¬ connOn g g.nodeFinset F))).getD ∅

end nx

/-- One entry of the per-k table built by `k_connectivity_analysis`. -/
structure KEntry where
  k_node_connected : Bool
  k_edge_connected : Bool
  description : String
  deriving DecidableEq

/-- `_get_k_connectivity_description(k, node_conn, edge_conn)`. -/
def getKDescription (k node_conn edge_conn : Nat) : String :=
  (if k ≤ node_conn then
      "Le graphe est " ++ toString k ++ "-connexe par nœuds"
    else
      "Le graphe N\x27EST PAS " ++ toString k ++ "-connexe par nœuds")
  ++ " | " ++
  (if k ≤ edge_conn then
      "Le graphe est " ++ toString k ++ "-connexe par arêtes"
    else
      "Le graphe N\x27EST PAS " ++ toString k ++ "-connexe par arêtes")

/-- The result dictionary built by `k_connectivity_analysis`
(`basic_info`, `connectivity`, `cuts` and the per-k table, flattened;
the cut sets appear through `list(...)`, kept here in the node/edge
list order of the graph). -/
structure KReport where
  nodes : Nat
  edges : Nat
  is_connected : Bool
  is_directed : Bool
  node_connectivity : Nat
  edge_connectivity : Nat
  minimum_node_cut : List Nat
  minimum_edge_cut : List (Nat × Nat)
  k_analysis : List (Nat × KEntry)
  deriving DecidableEq

/-- The mutable state of a `GraphConnectivityAnalyzer` instance: the
graph, the two keys of `analysis_cache`, and `connectivity_results`. -/
structure GraphConnectivityAnalyzer where
  graph : Option PyGraph
  cache_node_connectivity : Option Nat
  cache_edge_connectivity : Option Nat
  connectivity_results : Option KReport
  deriving DecidableEq

namespace GraphConnectivityAnalyzer

open PyGraph

/-- `GraphConnectivityAnalyzer(graph)`: fresh caches. -/
def init (g : Option PyGraph) : GraphConnectivityAnalyzer :=
  ⟨g, none, none, none⟩

/-- Python truthiness of `self.graph`: `None` is falsy, and a networkx
graph is falsy exactly when it has no nodes (`__len__`). -/
def graphFalsy (a : GraphConnectivityAnalyzer) : Bool :=
  match a.graph with
  | none => true
  | some g => decide (g.nodes.length = 0)

/-- The `try` block of `node_connectivity` (lines 101-114): trivial
graph and disconnected graph fast paths, then the complete-graph test
`nx.is_complete_graph`, whose attribute access raises (so the
complete branch and the general `nx.node_connectivity` call below it
are unreachable at run time). -/
def nodeConnCompute (g : PyGraph) : Except NxErr Nat :=
  if g.number_of_nodes ≤ 1 then .ok 0
  else
    match nx.is_connected g with
    | .error e => .error e
    | .ok conn =>
      if !conn then .ok 0
      else
        match nx.is_complete_graph g with
        | .error e => .error e
        | .ok complete =>
          if complete then .ok (g.number_of_nodes - 1)
          else .ok (nx.node_connectivity g)

/-- The `try` block of `edge_connectivity` (lines 133-144): no
complete-graph fast path. -/
def edgeConnCompute (g : PyGraph) : Except NxErr Nat :=
  if g.number_of_nodes ≤ 1 then .ok 0
  else
    match nx.is_connected g with
    | .error e => .error e
    | .ok conn =>
      if !conn then .ok 0
      else .ok (nx.edge_connectivity g)

/-- `node_connectivity(self)` (lines 88-118): falsy graph returns 0;
then the cache is consulted; otherwise the value is computed, cached
on success, and any exception is swallowed into 0 without caching. -/
def node_connectivity (a : GraphConnectivityAnalyzer) :
    Nat × GraphConnectivityAnalyzer :=
  if a.graphFalsy then (0, a)
  else
    match a.cache_node_connectivity with
    | some c => (c, a)
    | none =>
      match a.graph with
      | none => (0, a)
      | some g =>
        match nodeConnCompute g with
        | .ok c => (c, { a with cache_node_connectivity := some c })
        | .error _ => (0, a)

/-- `edge_connectivity(self)` (lines 120-148). -/
def edge_connectivity (a : GraphConnectivityAnalyzer) :
    Nat × GraphConnectivityAnalyzer :=
  if a.graphFalsy then (0, a)
  else
    match a.cache_edge_connectivity with
    | some c => (c, a)
    | none =>
      match a.graph with
      | none => (0, a)
      | some g =>
        match edgeConnCompute g with
        | .ok c => (c, { a with cache_edge_connectivity := some c })
        | .error _ => (0, a)

/-- `minimum_node_cut(self)` (lines 150-170).  The guard
`not self.graph or not nx.is_connected(self.graph)` sits outside the
`try`, so the exception of `nx.is_connected` on a directed graph
propagates to the caller.  Inside the `try`, the first statement is
the `nx.is_complete_graph` test, whose `AttributeError` the `except`
block resolves to the empty set; the fast-path and
`nx.minimum_node_cut` branches below it are unreachable at run
time. -/
def minimum_node_cut (a : GraphConnectivityAnalyzer) :
    Except NxErr (Finset Nat) :=
  if a.graphFalsy then .ok ∅
  else
    match a.graph with
    | none => .ok ∅
    | some g =>
      match nx.is_connected g with
      | .error e => .error e
      | .ok conn =>
        if !conn then .ok ∅
        else
          match nx.is_complete_graph g with
          | .error _ => .ok ∅
          | .ok complete =>
            if complete then .ok g.nodes.dropLast.toFinset
            else .ok (nx.minimum_node_cut g)

/-- `minimum_edge_cut(self)` (lines 172-187), same guard placement. -/
def minimum_edge_cut (a : GraphConnectivityAnalyzer) :
    Except NxErr (Finset (Nat × Nat)) :=
  if a.graphFalsy then .ok ∅
  else
    match a.graph with
    | none => .ok ∅
    | some g =>
      match nx.is_connected g with
      | .error e => .error e
      | .ok conn =>
        if !conn then .ok ∅
        else .ok (nx.minimum_edge_cut g)

/-- `k_connectivity_analysis(self, max_k)` (lines 189-236).  `None`
for `max_k` defaults to the node count; a falsy graph returns the
empty dictionary (modelled as `none`); the `basic_info` field
`is_connected` is evaluated first, so its exception on a directed
graph propagates before any connectivity value is computed; the per-k
loop runs over `range(1, min(max_k + 1, n_nodes))`. -/
def k_connectivity_analysis (a : GraphConnectivityAnalyzer)
    (max_k : Option Nat) :
    Except NxErr (Option KReport × GraphConnectivityAnalyzer) :=
  if a.graphFalsy then .ok (none, a)
  else
    match a.graph with
    | none => .ok (none, a)
    | some g =>
      let n := g.number_of_nodes
      let mk := max_k.getD n
      match nx.is_connected g with
      | .error e => .error e
      | .ok conn =>
        let (nc, a1) := node_connectivity a
        let (ec, a2) := edge_connectivity a1
        match minimum_node_cut a2 with
        | .error e => .error e
        | .ok ncut =>
          match minimum_edge_cut a2 with
          | .error e => .error e
          | .ok ecut =>
            let ks := List.range' 1 (min (mk + 1) n - 1)
            let r : KReport :=
              { nodes := n
                edges := g.number_of_edges
                is_connected := conn
                is_directed := g.directed
                node_connectivity := nc
                edge_connectivity := ec
                minimum_node_cut := g.nodes.filter (fun v => v ∈ ncut)
                minimum_edge_cut := g.edges.filter (fun e => e ∈ ecut)
                k_analysis := ks.map (fun k =>
                  (k, ⟨decide (k ≤ nc), decide (k ≤ ec),
                       getKDescription k nc ec⟩)) }
            .ok (some r, { a2 with connectivity_results := some r })

/-- `create_graph_from_edges(self, edges, directed)` (lines 62-86):
replaces the graph with a freshly built one and returns `True`.  The
`analysis_cache` is (notably) not touched. -/
def create_graph_from_edges (a : GraphConnectivityAnalyzer)
    (edges : List (Nat × Nat)) (directed : Bool) :
    Bool × GraphConnectivityAnalyzer :=
  (true, { a with graph := some (buildGraph edges directed) })

end GraphConnectivityAnalyzer

namespace PyGraph

/-- The graph-model invariants: no duplicate nodes, edge endpoints
registered as nodes, no duplicate edges, and (undirected case) no edge
stored under both orientations. -/
def WF (g : PyGraph) : Prop :=
  g.nodes.Nodup ∧
  (∀ e ∈ g.edges, e.1 ∈ g.nodes ∧ e.2 ∈ g.nodes) ∧
  g.edges.Nodup ∧
  (g.directed = false →
    ∀ e ∈ g.edges, (e.2, e.1) ∈ g.edges → e.1 = e.2)

instance (g : PyGraph) : Decidable (WF g) := by
  unfold WF; infer_instance

theorem add_node_directed (g : PyGraph) (v : Nat) :
    (g.add_node v).directed = g.directed := by
  unfold add_node; split <;> rfl

theorem add_node_edges (g : PyGraph) (v : Nat) :
    (g.add_node v).edges = g.edges := by
  unfold add_node; split <;> rfl

theorem mem_add_node (g : PyGraph) (v x : Nat) (h : x ∈ g.nodes) :
    x ∈ (g.add_node v).nodes := by
  unfold add_node; split
  · exact h
  · exact List.mem_append_left _ h

theorem self_mem_add_node (g : PyGraph) (v : Nat) :
    v ∈ (g.add_node v).nodes := by
  unfold add_node; split
  · assumption
  · exact List.mem_append_right _ (List.mem_singleton.mpr rfl)

theorem add_node_nodup (g : PyGraph) (v : Nat) (h : g.nodes.Nodup) :
    (g.add_node v).nodes.Nodup := by
  unfold add_node; split
  · exact h
  · next hv =>
      simpa [List.nodup_append, List.disjoint_singleton] using ⟨h, hv⟩

theorem add_edge_directed (g : PyGraph) (u v : Nat) :
    (g.add_edge u v).directed = g.directed := by
  unfold add_edge
  split <;> simp [add_node_directed]

theorem mem_add_edge_nodes (g : PyGraph) (u v x : Nat) (h : x ∈ g.nodes) :
    x ∈ (g.add_edge u v).nodes := by
  unfold add_edge
  split <;> exact mem_add_node _ _ _ (mem_add_node _ _ _ h)

theorem add_edge_wf (g : PyGraph) (u v : Nat) (h : WF g) :
    WF (g.add_edge u v) := by
  obtain ⟨hn, he, hd, hu⟩ := h
  have hn2 : ((g.add_node u).add_node v).nodes.Nodup :=
    add_node_nodup _ _ (add_node_nodup _ _ hn)
  have he2 : ∀ e ∈ g.edges,
      e.1 ∈ ((g.add_node u).add_node v).nodes ∧
      e.2 ∈ ((g.add_node u).add_node v).nodes := by
    intro e hmem
    exact ⟨mem_add_node _ _ _ (mem_add_node _ _ _ (he e hmem).1),
           mem_add_node _ _ _ (mem_add_node _ _ _ (he e hmem).2)⟩
  unfold add_edge
  split
  · refine ⟨hn2, ?_, ?_, ?_⟩
    · intro e hmem
      rw [add_node_edges, add_node_edges] at hmem
      exact he2 e hmem
    · rw [add_node_edges, add_node_edges]; exact hd
    · rw [add_node_directed, add_node_directed, add_node_edges,
        add_node_edges]
      exact hu
  · next hne =>
      rw [hasEdge, add_node_directed, add_node_directed, add_node_edges,
        add_node_edges] at hne
      have hnotin : (u, v) ∉ g.edges := by
        intro hmem
        apply hne
        split
        · exact decide_eq_true hmem
        · simp [hmem]
      refine ⟨hn2, ?_, ?_, ?_⟩
      · intro e hmem
        simp only [add_node_edges] at hmem
        rcases List.mem_append.mp hmem with hold | hnew
        · exact he2 e hold
        · rcases List.mem_singleton.mp hnew with rfl
          exact ⟨mem_add_node _ _ _ (self_mem_add_node _ _),
                 self_mem_add_node _ _⟩
      · simp only [add_node_edges]
        rw [List.nodup_append]
        refine ⟨hd, List.nodup_singleton _, ?_⟩
        intro e hmem hmem'
        rcases List.mem_singleton.mp hmem' with rfl
        exact hnotin hmem
      · simp only [add_node_directed, add_node_edges]
        intro hdir e hmem hmem'
        rw [if_neg (by rw [hdir]; exact Bool.false_ne_true)] at hne
        have hrevnotin : (v, u) ∉ g.edges := by
          intro hmem2
          exact hne (by simp [hmem2])
        rcases List.mem_append.mp hmem with hold | hnew
        · rcases List.mem_append.mp hmem' with hold' | hnew'
          · exact hu hdir e hold hold'
          · rcases List.mem_singleton.mp hnew' with hrev
            have h1 : e.2 = u := congrArg Prod.fst hrev
            have h2 : e.1 = v := congrArg Prod.snd hrev
            exact absurd (show (v, u) ∈ g.edges by
              rw [← h1, ← h2]; simpa using hold) hrevnotin
        · rcases List.mem_singleton.mp hnew with rfl
          rcases List.mem_append.mp hmem' with hold' | hnew'
          · exact absurd hold' hrevnotin
          · rcases List.mem_singleton.mp hnew' with heq
            exact (congrArg Prod.fst heq).symm

theorem empty_wf (d : Bool) : WF (emptyGraph d) := by
  refine ⟨List.nodup_nil, ?_, List.nodup_nil, ?_⟩ <;> simp [emptyGraph]

theorem add_edges_from_wf (g : PyGraph) (es : List (Nat × Nat))
    (h : WF g) : WF (g.add_edges_from es) := by
  induction es generalizing g with
  | nil => exact h
  | cons e rest ih => exact ih _ (add_edge_wf _ _ _ h)

/-- Every graph produced by `create_graph_from_edges` satisfies the
graph-model invariants. -/
theorem buildGraph_wf (es : List (Nat × Nat)) (d : Bool) :
    WF (buildGraph es d) :=
  add_edges_from_wf _ _ (empty_wf d)

theorem add_edges_from_directed (g : PyGraph) (es : List (Nat × Nat)) :
    (g.add_edges_from es).directed = g.directed := by
  induction es generalizing g with
  | nil => rfl
  | cons e rest ih => rw [add_edges_from, List.foldl_cons]
                      exact (ih _).trans (add_edge_directed _ _ _)

theorem buildGraph_directed (es : List (Nat × Nat)) (d : Bool) :
    (buildGraph es d).directed = d :=
  add_edges_from_directed _ _

end PyGraph

namespace GraphConnectivityAnalyzer

open PyGraph

/-- The value/cache transition that `node_connectivity` performs, as a
pure function of the graph and the `node_connectivity` cache key. -/
def nodeStep (og : Option PyGraph) (c : Option Nat) : Nat × Option Nat :=
  match og with
  | none => (0, c)
  | some g =>
    if g.nodes.length = 0 then (0, c)
    else
      match c with
      | some x => (x, c)
      | none =>
        match nodeConnCompute g with
        | .ok x => (x, some x)
        | .error _ => (0, none)

/-- The value/cache transition of `edge_connectivity`. -/
def edgeStep (og : Option PyGraph) (c : Option Nat) : Nat × Option Nat :=
  match og with
  | none => (0, c)
  | some g =>
    if g.nodes.length = 0 then (0, c)
    else
      match c with
      | some x => (x, c)
      | none =>
        match edgeConnCompute g with
        | .ok x => (x, some x)
        | .error _ => (0, none)

theorem node_connectivity_eq (a : GraphConnectivityAnalyzer) :
    node_connectivity a =
      ((nodeStep a.graph a.cache_node_connectivity).1,
       { a with cache_node_connectivity :=
           (nodeStep a.graph a.cache_node_connectivity).2 }) := by
  rcases a with ⟨og, cn, ce, cr⟩
  cases og with
  | none => cases cn <;> rfl
  | some g =>
    simp only [node_connectivity, graphFalsy, nodeStep]
    by_cases h0 : g.nodes.length = 0
    · simp only [h0]
      cases cn <;> simp
    · simp only [h0]
      cases cn with
      | some x => simp
      | none =>
        simp only []
        cases nodeConnCompute g <;> simp

theorem edge_connectivity_eq (a : GraphConnectivityAnalyzer) :
    edge_connectivity a =
      ((edgeStep a.graph a.cache_edge_connectivity).1,
       { a with cache_edge_connectivity :=
           (edgeStep a.graph a.cache_edge_connectivity).2 }) := by
  rcases a with ⟨og, cn, ce, cr⟩
  cases og with
  | none => cases ce <;> rfl
  | some g =>
    simp only [edge_connectivity, graphFalsy, edgeStep]
    by_cases h0 : g.nodes.length = 0
    · simp only [h0]
      cases ce <;> simp
    · simp only [h0]
      cases ce with
      | some x => simp
      | none =>
        simp only []
        cases edgeConnCompute g <;> simp

theorem nodeStep_idem (og : Option PyGraph) (c : Option Nat) :
    nodeStep og (nodeStep og c).2 = nodeStep og c := by
  cases og with
  | none => rfl
  | some g =>
    simp only [nodeStep]
    by_cases h0 : g.nodes.length = 0
    · simp [h0]
    · simp only [h0, if_neg]
      cases c with
      | some x => simp
      | none =>
        simp only []
        cases nodeConnCompute g <;> simp

theorem edgeStep_idem (og : Option PyGraph) (c : Option Nat) :
    edgeStep og (edgeStep og c).2 = edgeStep og c := by
  cases og with
  | none => rfl
  | some g =>
    simp only [edgeStep]
    by_cases h0 : g.nodes.length = 0
    · simp [h0]
    · simp only [h0, if_neg]
      cases c with
      | some x => simp
      | none =>
        simp only []
        cases edgeConnCompute g <;> simp

/-- `minimum_node_cut` reads only the graph. -/
def nodeCutResult (og : Option PyGraph) : Except NxErr (Finset Nat) :=
  match og with
  | none => .ok ∅
  | some g =>
    if g.nodes.length = 0 then .ok ∅
    else
      match nx.is_connected g with
      | .error e => .error e
      | .ok conn =>
        if !conn then .ok ∅
        else
          match nx.is_complete_graph g with
          | .error _ => .ok ∅
          | .ok complete =>
            if complete then .ok g.nodes.dropLast.toFinset
            else .ok (nx.minimum_node_cut g)

/-- `minimum_edge_cut` reads only the graph. -/
def edgeCutResult (og : Option PyGraph) : Except NxErr (Finset (Nat × Nat)) :=
  match og with
  | none => .ok ∅
  | some g =>
    if g.nodes.length = 0 then .ok ∅
    else
      match nx.is_connected g with
      | .error e => .error e
      | .ok conn =>
        if !conn then .ok ∅
        else .ok (nx.minimum_edge_cut g)

theorem minimum_node_cut_eq (a : GraphConnectivityAnalyzer) :
    minimum_node_cut a = nodeCutResult a.graph := by
  rcases a with ⟨og, cn, ce, cr⟩
  cases og with
  | none => rfl
  | some g =>
    simp only [minimum_node_cut, nodeCutResult, graphFalsy]
    by_cases h0 : g.nodes.length = 0 <;> simp [h0]

theorem minimum_edge_cut_eq (a : GraphConnectivityAnalyzer) :
    minimum_edge_cut a = edgeCutResult a.graph := by
  rcases a with ⟨og, cn, ce, cr⟩
  cases og with
  | none => rfl
  | some g =>
    simp only [minimum_edge_cut, edgeCutResult, graphFalsy]
    by_cases h0 : g.nodes.length = 0 <;> simp [h0]

/-- The node cut `minimum_node_cut` reports once the connectivity test
returned `conn` (always the empty set on the connected branch, via the
`AttributeError` of `nx.is_complete_graph` caught by the `except`). -/
def pureNodeCut (g : PyGraph) (conn : Bool) : Finset Nat :=
  if !conn then ∅
  else
    match nx.is_complete_graph g with
    | .error _ => ∅
    | .ok complete =>
      if complete then g.nodes.dropLast.toFinset
      else nx.minimum_node_cut g

/-- The edge cut `minimum_edge_cut` reports once the connectivity test
returned `conn`. -/
def pureEdgeCut (g : PyGraph) (conn : Bool) : Finset (Nat × Nat) :=
  if !conn then ∅ else nx.minimum_edge_cut g

theorem nodeCutResult_of_ok (g : PyGraph) (conn : Bool)
    (h0 : ¬ g.nodes.length = 0) (hc : nx.is_connected g = .ok conn) :
    nodeCutResult (some g) = .ok (pureNodeCut g conn) := by
  simp only [nodeCutResult, if_neg h0, hc, pureNodeCut]
  split
  · rfl
  · rfl

theorem edgeCutResult_of_ok (g : PyGraph) (conn : Bool)
    (h0 : ¬ g.nodes.length = 0) (hc : nx.is_connected g = .ok conn) :
    edgeCutResult (some g) = .ok (pureEdgeCut g conn) := by
  simp only [edgeCutResult, if_neg h0, hc, pureEdgeCut]
  split <;> rfl

/-- The report `k_connectivity_analysis` assembles from the computed
ingredients. -/
def builtReport (g : PyGraph) (conn : Bool) (nc ec : Nat)
    (ncut : Finset Nat) (ecut : Finset (Nat × Nat)) (mk : Nat) : KReport :=
  { nodes := g.number_of_nodes
    edges := g.number_of_edges
    is_connected := conn
    is_directed := g.directed
    node_connectivity := nc
    edge_connectivity := ec
    minimum_node_cut := g.nodes.filter (fun v => v ∈ ncut)
    minimum_edge_cut := g.edges.filter (fun e => e ∈ ecut)
    k_analysis := (List.range' 1 (min (mk + 1) g.number_of_nodes - 1)).map
      (fun k => (k, ⟨decide (k ≤ nc), decide (k ≤ ec),
                     getKDescription k nc ec⟩)) }

/-- The report of one analysis run as a function of the graph, the two
cache keys, the connectivity flag and `max_k`. -/
def analysisOutcome (g : PyGraph) (cn ce : Option Nat) (conn : Bool)
    (mk : Option Nat) : KReport :=
  builtReport g conn (nodeStep (some g) cn).1 (edgeStep (some g) ce).1
    (pureNodeCut g conn) (pureEdgeCut g conn) (mk.getD g.number_of_nodes)

theorem k_connectivity_analysis_ok (a : GraphConnectivityAnalyzer)
    (g : PyGraph) (mk : Option Nat) (conn : Bool)
    (hg : a.graph = some g) (h0 : ¬ g.nodes.length = 0)
    (hc : nx.is_connected g = .ok conn) :
    k_connectivity_analysis a mk =
      .ok (some (analysisOutcome g a.cache_node_connectivity
                  a.cache_edge_connectivity conn mk),
           ⟨some g,
            (nodeStep (some g) a.cache_node_connectivity).2,
            (edgeStep (some g) a.cache_edge_connectivity).2,
            some (analysisOutcome g a.cache_node_connectivity
                  a.cache_edge_connectivity conn mk)⟩) := by
  rcases a with ⟨og, cn, ce, cr⟩
  cases hg
  have hfalsy : graphFalsy ⟨some g, cn, ce, cr⟩ = false := by
    simp [graphFalsy, h0]
  simp only [k_connectivity_analysis, hfalsy, Bool.false_eq_true, if_false,
    hc, node_connectivity_eq, edge_connectivity_eq, minimum_node_cut_eq,
    minimum_edge_cut_eq]
  simp only [nodeCutResult_of_ok g conn h0 hc, edgeCutResult_of_ok g conn h0 hc]
  rfl

end GraphConnectivityAnalyzer

namespace PyGraph

theorem wf_card_nodes {g : PyGraph} (h : WF g) :
    g.nodeFinset.card = g.nodes.length :=
  List.toFinset_card_of_nodup h.1

theorem mem_nodeFinset_left {g : PyGraph} (h : WF g) {u v : Nat}
    (he : (u, v) ∈ g.edges ∨ (v, u) ∈ g.edges) : u ∈ g.nodeFinset := by
  rcases he with he | he
  · exact List.mem_toFinset.mpr (h.2.1 _ he).1
  · exact List.mem_toFinset.mpr (h.2.1 _ he).2

theorem mem_nodeFinset_right {g : PyGraph} (h : WF g) {u v : Nat}
    (he : (u, v) ∈ g.edges ∨ (v, u) ∈ g.edges) : v ∈ g.nodeFinset := by
  rcases he with he | he
  · exact List.mem_toFinset.mpr (h.2.1 _ he).2
  · exact List.mem_toFinset.mpr (h.2.1 _ he).1

theorem settlingSets_nonempty (g : PyGraph) : (settlingSets g).Nonempty := by
  refine ⟨g.nodeFinset, Finset.mem_filter.mpr
    ⟨Finset.mem_powerset.mpr le_rfl, Or.inr ?_⟩⟩
  simp

theorem kappa_le {g : PyGraph} {S : Finset Nat} (hS : S ⊆ g.nodeFinset)
    (h : settles g S) : kappa g ≤ S.card := by
  rw [kappa, dif_pos (settlingSets_nonempty g)]
  exact Finset.min'_le _ _ (Finset.mem_image_of_mem _
    (Finset.mem_filter.mpr ⟨Finset.mem_powerset.mpr hS, h⟩))

theorem exists_kappa (g : PyGraph) :
    ∃ S ⊆ g.nodeFinset, S.card = kappa g ∧ settles g S := by
  rw [kappa, dif_pos (settlingSets_nonempty g)]
  obtain ⟨S, hS, hc⟩ := Finset.mem_image.mp
    (Finset.min'_mem ((settlingSets g).image Finset.card)
      ((settlingSets_nonempty g).image _))
  rw [settlingSets, Finset.mem_filter, Finset.mem_powerset] at hS
  exact ⟨S, hS.1, hc, hS.2⟩

theorem lambda_le {g : PyGraph} {F : Finset (Nat × Nat)}
    (hF : F ⊆ g.edgeFinset) (h : ¬ connOn g g.nodeFinset F) :
    lambda g ≤ F.card := by
  have hne : (edgeCutCandidates g).Nonempty :=
    ⟨F, Finset.mem_filter.mpr ⟨Finset.mem_powerset.mpr hF, h⟩⟩
  rw [lambda, dif_pos hne]
  exact Finset.min'_le _ _ (Finset.mem_image_of_mem _
    (Finset.mem_filter.mpr ⟨Finset.mem_powerset.mpr hF, h⟩))

theorem exists_lambda {g : PyGraph} (hne : (edgeCutCandidates g).Nonempty) :
    ∃ F ⊆ g.edgeFinset, F.card = lambda g ∧ ¬ connOn g g.nodeFinset F := by
  rw [lambda, dif_pos hne]
  obtain ⟨F, hF, hc⟩ := Finset.mem_image.mp
    (Finset.min'_mem ((edgeCutCandidates g).image Finset.card) (hne.image _))
  rw [edgeCutCandidates, Finset.mem_filter, Finset.mem_powerset] at hF
  exact ⟨F, hF.1, hc, hF.2⟩

/-- A set closed under surviving steps contains everything reachable
from any of its members. -/
theorem reach_closed {g : PyGraph} {act C : Finset Nat}
    {F : Finset (Nat × Nat)} {u v : Nat}
    (hstep : ∀ x ∈ C, ∀ y, stepRel g act F x y → y ∈ C)
    (hu : u ∈ C) (h : Reach g act F u v) : v ∈ C := by
  induction h with
  | refl => exact hu
  | tail _ hs ih => exact hstep _ ih _ hs

/-- A finite graph in which every nonempty proper subset of the active
set has a surviving edge leaving it is connected. -/
theorem connOn_of_cuts {g : PyGraph} {act : Finset Nat}
    {F : Finset (Nat × Nat)} (hne : act.Nonempty)
    (h : ∀ A ⊆ act, A.Nonempty → A ≠ act →
      ∃ u ∈ A, ∃ v ∈ act \ A, stepRel g act F u v) :
    connOn g act F := by
  refine ⟨hne, fun u hu v hv => ?_⟩
  by_contra hreach
  set A := act.filter (fun x => Reach g act F u x) with hA
  have huA : u ∈ A := Finset.mem_filter.mpr ⟨hu, Relation.ReflTransGen.refl⟩
  have hAsub : A ⊆ act := Finset.filter_subset _ _
  have hAne : A ≠ act := by
    intro heq
    exact hreach (Finset.mem_filter.mp (heq ▸ hv)).2
  obtain ⟨x, hx, y, hy, hs⟩ := h A hAsub ⟨u, huA⟩ hAne
  rw [Finset.mem_sdiff] at hy
  exact hy.2 (Finset.mem_filter.mpr
    ⟨hy.1, (Finset.mem_filter.mp hx).2.tail hs⟩)

/-- Removing every edge disconnects a graph with two distinct
vertices. -/
theorem not_connOn_remove_all {g : PyGraph} (h2 : 2 ≤ g.nodeFinset.card) :
    ¬ connOn g g.nodeFinset g.edgeFinset := by
  obtain ⟨a, ha, b, hb, hab⟩ := Finset.one_lt_card.mp h2
  rintro ⟨-, hall⟩
  have h := hall a ha b hb
  rcases Relation.ReflTransGen.cases_head h with he | ⟨c, hc, -⟩
  · exact hab he
  · rcases hc.2.2.2.1 with he | he
    · exact hc.2.2.2.2.1 (List.mem_toFinset.mpr he)
    · exact hc.2.2.2.2.2 (List.mem_toFinset.mpr he)

theorem edgeCutCandidates_nonempty {g : PyGraph}
    (h2 : 2 ≤ g.nodeFinset.card) : (edgeCutCandidates g).Nonempty :=
  ⟨g.edgeFinset, Finset.mem_filter.mpr
    ⟨Finset.mem_powerset.mpr le_rfl, not_connOn_remove_all h2⟩⟩

/-- κ(G) ≤ n − 1: deleting all vertices but one settles any graph. -/
theorem kappa_le_card_sub_one {g : PyGraph} (hne : g.nodeFinset.Nonempty) :
    kappa g ≤ g.nodeFinset.card - 1 := by
  obtain ⟨x, hx⟩ := hne
  have hcard : (g.nodeFinset \ g.nodeFinset.erase x) = {x} := by
    rw [Finset.sdiff_erase hx, Finset.sdiff_self]
    rfl
  have := kappa_le (Finset.erase_subset x g.nodeFinset)
    (Or.inr (by rw [hcard]; simp))
  rwa [Finset.card_erase_of_mem hx] at this

/-- Completeness as a proposition: all distinct vertices adjacent. -/
def completeP (g : PyGraph) : Prop :=
  ∀ u ∈ g.nodeFinset, ∀ v ∈ g.nodeFinset, u ≠ v → survives g ∅ u v

instance (g : PyGraph) : Decidable (completeP g) := by
  unfold completeP; infer_instance

theorem complete_connOn {g : PyGraph} (hc : completeP g) {act : Finset Nat}
    (hsub : act ⊆ g.nodeFinset) (hne : act.Nonempty) : connOn g act ∅ := by
  refine connOn_of_cuts hne ?_
  intro A hA hAne hAneq
  obtain ⟨u, hu⟩ := hAne
  obtain ⟨v, hv, hvA⟩ := Finset.exists_of_ssubset (lt_of_le_of_ne hA hAneq)
  exact ⟨u, hu, v, Finset.mem_sdiff.mpr ⟨hv, hvA⟩,
    hA hu, hv, fun he => hvA (he ▸ hu),
    hc u (hsub (hA hu)) v (hsub hv) (fun he => hvA (he ▸ hu))⟩

theorem kappa_complete {g : PyGraph} (hc : completeP g)
    (h2 : 2 ≤ g.nodeFinset.card) : kappa g = g.nodeFinset.card - 1 := by
  refine le_antisymm (kappa_le_card_sub_one (Finset.card_pos.mp (by omega))) ?_
  obtain ⟨S, hsub, hcard, hsettle⟩ := exists_kappa g
  have hle1 : (g.nodeFinset \ S).card ≤ 1 := by
    rcases hsettle with hdis | hle
    · by_contra hgt
      have hne : (g.nodeFinset \ S).Nonempty := by
        rw [← Finset.card_pos]; omega
      exact hdis (complete_connOn hc (Finset.sdiff_subset) hne)
    · exact hle
  rw [Finset.card_sdiff hsub] at hle1
  have := Finset.card_le_card hsub
  omega

theorem mul_ge_add_sub_one {a b : Nat} (ha : 1 ≤ a) (hb : 1 ≤ b) :
    a + b - 1 ≤ a * b := by
  obtain ⟨a', rfl⟩ := Nat.exists_eq_add_of_le ha
  obtain ⟨b', rfl⟩ := Nat.exists_eq_add_of_le hb
  simp only [Nat.add_mul, Nat.mul_add, Nat.one_mul, Nat.mul_one]
  omega

/-- When every pair across a disjoint bipartition lies in `F` under one
of its orientations, the bipartition's pair count bounds `F`. -/
theorem card_cross_le {A B : Finset Nat} {F : Finset (Nat × Nat)}
    (hdisj : Disjoint A B)
    (hcross : ∀ u ∈ A, ∀ v ∈ B, (u, v) ∈ F ∨ (v, u) ∈ F) :
    (A ×ˢ B).card ≤ F.card := by
  refine Finset.card_le_card_of_injOn
    (fun p => if p ∈ F then p else (p.2, p.1)) ?_ ?_
  · intro p hp
    rw [Finset.mem_product] at hp
    by_cases hpF : p ∈ F
    · simp [hpF]
    · rcases hcross p.1 hp.1 p.2 hp.2 with h | h
      · exact absurd (show p ∈ F by rwa [show ((p.1 : Nat), (p.2 : Nat)) = p
          from rfl] at h) hpF
      · simpa [hpF] using h
  · intro p hp q hq heq
    rw [Finset.mem_coe, Finset.mem_product] at hp hq
    by_cases hpF : p ∈ F <;> by_cases hqF : q ∈ F <;>
      simp only [hpF, hqF, if_pos, if_neg, if_true, if_false] at heq
    · exact heq
    · exfalso
      have h1 : p.1 = q.2 := congrArg Prod.fst heq
      exact Finset.disjoint_left.mp hdisj hp.1 (h1 ▸ hq.2)
    · exfalso
      have h1 : q.1 = p.2 := (congrArg Prod.fst heq).symm
      exact Finset.disjoint_left.mp hdisj hq.1 (h1 ▸ hp.2)
    · have h1 : p.2 = q.2 := congrArg Prod.fst heq
      have h2 : p.1 = q.1 := congrArg Prod.snd heq
      exact Prod.ext h2 h1

/-- The incident-edge set of a designated vertex of a complete graph
has exactly n − 1 elements. -/
theorem card_incident_complete {g : PyGraph} (hWF : WF g)
    (hundir : g.directed = false) (hc : completeP g) {x : Nat}
    (hx : x ∈ g.nodeFinset) :
    (g.edgeFinset.filter (fun e => (e.1 = x ∨ e.2 = x) ∧ e.1 ≠ e.2)).card
      = g.nodeFinset.card - 1 := by
  rw [← Finset.card_erase_of_mem hx]
  refine Finset.card_bij (fun e _ => if e.1 = x then e.2 else e.1) ?_ ?_ ?_
  · intro e he
    dsimp only
    rw [Finset.mem_filter, edgeFinset, List.mem_toFinset] at he
    obtain ⟨hmem, hor, hne⟩ := he
    have hmem' : (e.1, e.2) ∈ g.edges := hmem
    rcases hor with h1 | h2
    · rw [if_pos h1]
      refine Finset.mem_erase.mpr ⟨fun hh => hne (h1.trans hh.symm), ?_⟩
      exact List.mem_toFinset.mpr (hWF.2.1 _ hmem').2
    · by_cases h1 : e.1 = x
      · rw [if_pos h1]
        refine Finset.mem_erase.mpr ⟨fun hh => hne (h1.trans hh.symm), ?_⟩
        exact List.mem_toFinset.mpr (hWF.2.1 _ hmem').2
      · rw [if_neg h1]
        exact Finset.mem_erase.mpr ⟨h1,
          List.mem_toFinset.mpr (hWF.2.1 _ hmem').1⟩
  · intro e he e' he' heq
    dsimp only at heq
    rw [Finset.mem_filter, edgeFinset, List.mem_toFinset] at he he'
    obtain ⟨hm, hor, hne⟩ := he
    obtain ⟨hm', hor', hne'⟩ := he'
    have hrev := hWF.2.2.2 hundir
    by_cases h1 : e.1 = x <;> by_cases h1' : e'.1 = x <;>
      simp only [h1, h1', if_true, if_false, if_pos, if_neg] at heq
    · exact Prod.ext (h1.trans h1'.symm) heq
    · exfalso
      have h2' : e'.2 = x := by
        rcases hor' with h | h
        · exact absurd h h1'
        · exact h
      have : ((e'.1 : Nat), (e'.2 : Nat)) ∈ g.edges := hm'
      have hx1 : (e'.2, e'.1) ∈ g.edges := by
        rw [h2', ← heq, ← h1]
        exact hm
      exact hne' (hrev _ this hx1)
    · exfalso
      have h2 : e.2 = x := by
        rcases hor with h | h
        · exact absurd h h1
        · exact h
      have : ((e.1 : Nat), (e.2 : Nat)) ∈ g.edges := hm
      have hx1 : (e.2, e.1) ∈ g.edges := by
        rw [h2, heq, ← h1']
        exact hm'
      exact hne (hrev _ this hx1)
    · have h2 : e.2 = x := by
        rcases hor with h | h
        · exact absurd h h1
        · exact h
      have h2' : e'.2 = x := by
        rcases hor' with h | h
        · exact absurd h h1'
        · exact h
      exact Prod.ext heq (h2.trans h2'.symm)
  · intro w hw
    rw [Finset.mem_erase] at hw
    have hsurv := hc w hw.2 x hx hw.1
    rcases hsurv.1 with hwx | hxw
    · refine ⟨(w, x), ?_, ?_⟩
      · rw [Finset.mem_filter, edgeFinset, List.mem_toFinset]
        exact ⟨hwx, Or.inr rfl, hw.1⟩
      · dsimp only
        rw [if_neg hw.1]
    · refine ⟨(x, w), ?_, ?_⟩
      · rw [Finset.mem_filter, edgeFinset, List.mem_toFinset]
        exact ⟨hxw, Or.inl rfl, fun hh => hw.1 hh.symm⟩
      · dsimp only
        rw [if_pos rfl]

/-- Removing the incident edges of `x` disconnects it. -/
theorem not_connOn_incident {g : PyGraph} {x : Nat}
    (hx : x ∈ g.nodeFinset) (h2 : 2 ≤ g.nodeFinset.card) :
    ¬ connOn g g.nodeFinset
      (g.edgeFinset.filter (fun e => (e.1 = x ∨ e.2 = x) ∧ e.1 ≠ e.2)) := by
  obtain ⟨b, hb, hbx⟩ := Finset.exists_ne_of_one_lt_card h2 x
  rintro ⟨-, hall⟩
  have hreach := hall x hx b hb
  have hclosed : ∀ z ∈ ({x} : Finset Nat), ∀ y,
      stepRel g g.nodeFinset
        (g.edgeFinset.filter (fun e => (e.1 = x ∨ e.2 = x) ∧ e.1 ≠ e.2)) z y →
      y ∈ ({x} : Finset Nat) := by
    intro z hz y hstep
    rw [Finset.mem_singleton] at hz
    subst hz
    obtain ⟨-, -, hne, hor, hF1, hF2⟩ := hstep
    exfalso
    rcases hor with hmem | hmem
    · exact hF1 (Finset.mem_filter.mpr
        ⟨List.mem_toFinset.mpr hmem, Or.inl rfl, fun hh => hne hh⟩)
    · exact hF2 (Finset.mem_filter.mpr
        ⟨List.mem_toFinset.mpr hmem, Or.inr rfl, fun hh => hne hh.symm⟩)
  exact hbx (Finset.mem_singleton.mp
    (reach_closed hclosed (Finset.mem_singleton.mpr rfl) hreach))

theorem lambda_complete {g : PyGraph} (hWF : WF g)
    (hundir : g.directed = false) (hc : completeP g)
    (h2 : 2 ≤ g.nodeFinset.card) : lambda g = g.nodeFinset.card - 1 := by
  obtain ⟨x, hx⟩ := Finset.card_pos.mp (show 0 < g.nodeFinset.card by omega)
  refine le_antisymm ?_ ?_
  · have hle := lambda_le (Finset.filter_subset
      (fun e => (e.1 = x ∨ e.2 = x) ∧ e.1 ≠ e.2) g.edgeFinset)
      (not_connOn_incident hx h2)
    rwa [card_incident_complete hWF hundir hc hx] at hle
  · obtain ⟨F, hFsub, hFcard, hFdis⟩ :=
      exists_lambda (edgeCutCandidates_nonempty h2)
    rw [← hFcard]
    by_contra hlt
    push_neg at hlt
    apply hFdis
    refine connOn_of_cuts (Finset.card_pos.mp (by omega)) ?_
    intro A hA hAne hAneq
    by_contra hnostep
    push_neg at hnostep
    have hBne : (g.nodeFinset \ A).Nonempty := by
      obtain ⟨v, hv, hvA⟩ := Finset.exists_of_ssubset (lt_of_le_of_ne hA hAneq)
      exact ⟨v, Finset.mem_sdiff.mpr ⟨hv, hvA⟩⟩
    have hkilled : ∀ u ∈ A, ∀ v ∈ g.nodeFinset \ A,
        (u, v) ∈ F ∨ (v, u) ∈ F := by
      intro u hu v hv
      have hvV := (Finset.mem_sdiff.mp hv).1
      have hvA := (Finset.mem_sdiff.mp hv).2
      have hne : u ≠ v := fun he => hvA (he ▸ hu)
      have hadj := hc u (hA hu) v hvV hne
      by_contra hnone
      push_neg at hnone
      exact hnostep u hu v hv ⟨hA hu, hvV, hne, hadj.1, hnone.1, hnone.2⟩
    have hcount := card_cross_le (Finset.disjoint_sdiff) hkilled
    rw [Finset.card_product, Finset.card_sdiff hA] at hcount
    have hA1 : 1 ≤ A.card := Finset.card_pos.mpr hAne
    have hB1 : 1 ≤ g.nodeFinset.card - A.card := by
      have := Finset.card_pos.mpr hBne
      rwa [Finset.card_sdiff hA] at this
    have hAle := Finset.card_le_card hA
    have hprod := mul_ge_add_sub_one hA1 hB1
    omega

theorem exists_min_degree_vertex {g : PyGraph}
    (hne : g.nodeFinset.Nonempty) :
    ∃ v ∈ g.nodeFinset, degree g v = minDegree g := by
  rw [minDegree, dif_pos (hne.image _)]
  obtain ⟨v, hv, hd⟩ := Finset.mem_image.mp
    (Finset.min'_mem (g.nodeFinset.image (degree g)) (hne.image _))
  exact ⟨v, hv, hd⟩

/-- In a well-formed simple undirected graph the incident-edge set of a
vertex has exactly `degree` elements. -/
theorem card_incident_eq_degree {g : PyGraph} (hWF : WF g)
    (hundir : g.directed = false)
    (hsimple : ∀ e ∈ g.edges, e.1 ≠ e.2) {v : Nat} :
    (g.edgeFinset.filter (fun e => e.1 = v ∨ e.2 = v)).card = degree g v := by
  rw [degree]
  refine Finset.card_bij (fun e _ => if e.1 = v then e.2 else e.1) ?_ ?_ ?_
  · intro e he
    dsimp only
    rw [Finset.mem_filter, edgeFinset, List.mem_toFinset] at he
    obtain ⟨hmem, hor⟩ := he
    have hmem' : (e.1, e.2) ∈ g.edges := hmem
    have hne : e.1 ≠ e.2 := hsimple _ hmem
    rcases hor with h1 | h2
    · rw [if_pos h1]
      refine Finset.mem_filter.mpr
        ⟨List.mem_toFinset.mpr (hWF.2.1 _ hmem').2,
         fun hh => hne (h1.trans hh.symm), Or.inr ?_, by simp, by simp⟩
      rw [← h1]
      exact hmem'
    · by_cases h1 : e.1 = v
      · rw [if_pos h1]
        refine Finset.mem_filter.mpr
          ⟨List.mem_toFinset.mpr (hWF.2.1 _ hmem').2,
           fun hh => hne (h1.trans hh.symm), Or.inr ?_, by simp, by simp⟩
        rw [← h1]
        exact hmem'
      · rw [if_neg h1]
        refine Finset.mem_filter.mpr
          ⟨List.mem_toFinset.mpr (hWF.2.1 _ hmem').1, h1, Or.inl ?_,
           by simp, by simp⟩
        rw [← h2]
        exact hmem'
  · intro e he e' he' heq
    dsimp only at heq
    rw [Finset.mem_filter, edgeFinset, List.mem_toFinset] at he he'
    obtain ⟨hm, hor⟩ := he
    obtain ⟨hm', hor'⟩ := he'
    have hrev := hWF.2.2.2 hundir
    have hne : e.1 ≠ e.2 := hsimple _ hm
    have hne' : e'.1 ≠ e'.2 := hsimple _ hm'
    by_cases h1 : e.1 = v <;> by_cases h1' : e'.1 = v <;>
      simp only [h1, h1', if_true, if_false, if_pos, if_neg] at heq
    · exact Prod.ext (h1.trans h1'.symm) heq
    · exfalso
      have h2' : e'.2 = v := by
        rcases hor' with h | h
        · exact absurd h h1'
        · exact h
      have hm2 : ((e'.1 : Nat), (e'.2 : Nat)) ∈ g.edges := hm'
      have hx1 : (e'.2, e'.1) ∈ g.edges := by
        rw [h2', ← heq, ← h1]
        exact hm
      exact hne' (hrev _ hm2 hx1)
    · exfalso
      have h2 : e.2 = v := by
        rcases hor with h | h
        · exact absurd h h1
        · exact h
      have hm2 : ((e.1 : Nat), (e.2 : Nat)) ∈ g.edges := hm
      have hx1 : (e.2, e.1) ∈ g.edges := by
        rw [h2, heq, ← h1']
        exact hm'
      exact hne (hrev _ hm2 hx1)
    · have h2 : e.2 = v := by
        rcases hor with h | h
        · exact absurd h h1
        · exact h
      have h2' : e'.2 = v := by
        rcases hor' with h | h
        · exact absurd h h1'
        · exact h
      exact Prod.ext heq (h2.trans h2'.symm)
  · intro w hw
    rw [Finset.mem_filter] at hw
    obtain ⟨-, hwv, hsurv⟩ := hw
    rcases hsurv.1 with hwx | hxw
    · refine ⟨(w, v), ?_, ?_⟩
      · rw [Finset.mem_filter, edgeFinset, List.mem_toFinset]
        exact ⟨hwx, Or.inr rfl⟩
      · dsimp only
        rw [if_neg hwv]
    · refine ⟨(v, w), ?_, ?_⟩
      · rw [Finset.mem_filter, edgeFinset, List.mem_toFinset]
        exact ⟨hxw, Or.inl rfl⟩
      · dsimp only
        rw [if_pos rfl]

/-- Removing all edges incident to `x` disconnects it from the rest. -/
theorem not_connOn_incident_all {g : PyGraph} {x : Nat}
    (hx : x ∈ g.nodeFinset) (h2 : 2 ≤ g.nodeFinset.card) :
    ¬ connOn g g.nodeFinset
      (g.edgeFinset.filter (fun e => e.1 = x ∨ e.2 = x)) := by
  obtain ⟨b, hb, hbx⟩ := Finset.exists_ne_of_one_lt_card h2 x
  rintro ⟨-, hall⟩
  have hreach := hall x hx b hb
  have hclosed : ∀ z ∈ ({x} : Finset Nat), ∀ y,
      stepRel g g.nodeFinset
        (g.edgeFinset.filter (fun e => e.1 = x ∨ e.2 = x)) z y →
      y ∈ ({x} : Finset Nat) := by
    intro z hz y hstep
    rw [Finset.mem_singleton] at hz
    subst hz
    obtain ⟨-, -, hne, hor, hF1, hF2⟩ := hstep
    exfalso
    rcases hor with hmem | hmem
    · exact hF1 (Finset.mem_filter.mpr
        ⟨List.mem_toFinset.mpr hmem, Or.inl rfl⟩)
    · exact hF2 (Finset.mem_filter.mpr
        ⟨List.mem_toFinset.mpr hmem, Or.inr rfl⟩)
  exact hbx (Finset.mem_singleton.mp
    (reach_closed hclosed (Finset.mem_singleton.mpr rfl) hreach))

/-- λ(G) ≤ δ(G): isolating a minimum-degree vertex is an edge cut. -/
theorem lambda_le_minDegree {g : PyGraph} (hWF : WF g)
    (hundir : g.directed = false)
    (hsimple : ∀ e ∈ g.edges, e.1 ≠ e.2)
    (h2 : 2 ≤ g.nodeFinset.card) : lambda g ≤ minDegree g := by
  obtain ⟨v, hv, hdeg⟩ := exists_min_degree_vertex
    (Finset.card_pos.mp (show 0 < g.nodeFinset.card by omega))
  have hle := lambda_le
    (Finset.filter_subset (fun e => e.1 = v ∨ e.2 = v) g.edgeFinset)
    (not_connOn_incident_all hv h2)
  rwa [card_incident_eq_degree hWF hundir hsimple, hdeg] at hle

/-- Whitney's inequality κ(G) ≤ λ(G) over the model: from a minimum
edge cut one side of the induced bipartition yields a vertex cut of no
larger size (Case 1: some non-adjacent pair across the partition gives
an explicit vertex cut; Case 2: all pairs across are adjacent, so the
edge cut already has at least n − 1 edges). -/
theorem kappa_le_lambda {g : PyGraph} (h2 : 2 ≤ g.nodeFinset.card) :
    kappa g ≤ lambda g := by
  obtain ⟨F, hFsub, hFcard, hFdis⟩ :=
    exists_lambda (edgeCutCandidates_nonempty h2)
  rw [← hFcard]
  have hVne : g.nodeFinset.Nonempty := Finset.card_pos.mp (by omega)
  obtain ⟨a, ha, b, hb, hab⟩ : ∃ a ∈ g.nodeFinset, ∃ b ∈ g.nodeFinset,
      ¬ Reach g g.nodeFinset F a b := by
    by_contra hall
    push_neg at hall
    exact hFdis ⟨hVne, hall⟩
  set A := g.nodeFinset.filter (fun x => Reach g g.nodeFinset F a x) with hA
  have haA : a ∈ A := Finset.mem_filter.mpr ⟨ha, Relation.ReflTransGen.refl⟩
  have hbA : b ∉ A := fun h => hab (Finset.mem_filter.mp h).2
  have hAsub : A ⊆ g.nodeFinset := Finset.filter_subset _ _
  have hkilled : ∀ u ∈ A, ∀ v ∈ g.nodeFinset \ A,
      ((u, v) ∈ g.edges ∨ (v, u) ∈ g.edges) → (u, v) ∈ F ∨ (v, u) ∈ F := by
    intro u hu v hv hadj
    by_contra hnone
    push_neg at hnone
    have hvV := (Finset.mem_sdiff.mp hv).1
    have hvA := (Finset.mem_sdiff.mp hv).2
    have hne : u ≠ v := fun he => hvA (he ▸ hu)
    exact hvA (Finset.mem_filter.mpr ⟨hvV, (Finset.mem_filter.mp hu).2.tail
      ⟨hAsub hu, hvV, hne, hadj, hnone.1, hnone.2⟩⟩)
  by_cases hcase : ∃ x ∈ A, ∃ y ∈ g.nodeFinset \ A,
      ¬((x, y) ∈ g.edges ∨ (y, x) ∈ g.edges)
  · -- Case 1: a non-adjacent pair across the partition
    obtain ⟨p, hpA, q, hqB, hnadj⟩ := hcase
    have hqV : q ∈ g.nodeFinset := (Finset.mem_sdiff.mp hqB).1
    have hqA : q ∉ A := (Finset.mem_sdiff.mp hqB).2
    set P1 := (g.nodeFinset \ A).filter
      (fun v => (p, v) ∈ g.edges ∨ (v, p) ∈ g.edges) with hP1
    set P2 := (A.erase p).filter
      (fun x => ∃ y ∈ g.nodeFinset \ A,
        (x, y) ∈ g.edges ∨ (y, x) ∈ g.edges) with hP2
    set S := P1 ∪ P2 with hS
    have hP1B : ∀ s ∈ P1, s ∈ g.nodeFinset \ A :=
      fun s h => (Finset.mem_filter.mp h).1
    have hP2A : ∀ s ∈ P2, s ∈ A ∧ s ≠ p := by
      intro s h
      have := Finset.mem_erase.mp (Finset.mem_of_mem_filter _ h)
      exact ⟨this.2, this.1⟩
    have hSsub : S ⊆ g.nodeFinset := by
      rw [hS]
      refine Finset.union_subset ?_ ?_
      · exact (Finset.filter_subset _ _).trans Finset.sdiff_subset
      · exact (Finset.filter_subset _ _).trans
          ((Finset.erase_subset _ _).trans hAsub)
    have hpS : p ∉ S := by
      rw [hS, Finset.mem_union]
      rintro (h | h)
      · exact (Finset.mem_sdiff.mp (hP1B _ h)).2 hpA
      · exact (hP2A _ h).2 rfl
    have hqS : q ∉ S := by
      rw [hS, Finset.mem_union]
      rintro (h | h)
      · exact hnadj (Finset.mem_filter.mp h).2
      · exact hqA (hP2A _ h).1
    -- the vertex set S disconnects p from q
    set C := A.filter (fun z => z = p ∨ ∀ y ∈ g.nodeFinset \ A,
      ¬((z, y) ∈ g.edges ∨ (y, z) ∈ g.edges)) with hC
    have hclosed : ∀ z ∈ C, ∀ w,
        stepRel g (g.nodeFinset \ S) ∅ z w → w ∈ C := by
      intro z hz w hstep
      obtain ⟨hzVS, hwVS, hzw, hadj, -, -⟩ := hstep
      have hzA : z ∈ A := (Finset.mem_filter.mp hz).1
      have hzC := (Finset.mem_filter.mp hz).2
      have hwV : w ∈ g.nodeFinset := (Finset.mem_sdiff.mp hwVS).1
      have hwS : w ∉ S := (Finset.mem_sdiff.mp hwVS).2
      by_cases hwA : w ∈ A
      · by_cases hwp : w = p
        · exact Finset.mem_filter.mpr ⟨hwA, Or.inl hwp⟩
        · refine Finset.mem_filter.mpr ⟨hwA, Or.inr ?_⟩
          intro y hy hadj2
          refine hwS ?_
          rw [hS]
          exact Finset.mem_union_right _ (Finset.mem_filter.mpr
            ⟨Finset.mem_erase.mpr ⟨hwp, hwA⟩, ⟨y, hy, hadj2⟩⟩)
      · exfalso
        have hwB : w ∈ g.nodeFinset \ A := Finset.mem_sdiff.mpr ⟨hwV, hwA⟩
        rcases hzC with hzp | hziso
        · subst hzp
          refine hwS ?_
          rw [hS]
          exact Finset.mem_union_left _
            (Finset.mem_filter.mpr ⟨hwB, hadj⟩)
        · exact hziso w hwB hadj
    have hpC : p ∈ C := Finset.mem_filter.mpr ⟨hpA, Or.inl rfl⟩
    have hdis : ¬ connOn g (g.nodeFinset \ S) ∅ := by
      rintro ⟨-, hall⟩
      have hr := hall p (Finset.mem_sdiff.mpr ⟨hAsub hpA, hpS⟩)
        q (Finset.mem_sdiff.mpr ⟨hqV, hqS⟩)
      exact hqA (Finset.mem_filter.mp (reach_closed hclosed hpC hr)).1
    refine (kappa_le hSsub (Or.inl hdis)).trans ?_
    -- |S| ≤ |F| via an explicit injection into the edge cut
    set nbr : Nat → Nat := fun x =>
      if h : ((g.nodeFinset \ A).filter
          (fun y => (x, y) ∈ g.edges ∨ (y, x) ∈ g.edges)).Nonempty
      then ((g.nodeFinset \ A).filter
          (fun y => (x, y) ∈ g.edges ∨ (y, x) ∈ g.edges)).min' h
      else 0 with hnbr
    set pick : Nat → Nat → Nat × Nat :=
      fun x y => if (x, y) ∈ F then (x, y) else (y, x) with hpick
    set φ : Nat → Nat × Nat :=
      fun s => if s ∈ A then pick s (nbr s) else pick p s with hphi
    have hpick_mem : ∀ x y, (x, y) ∈ F ∨ (y, x) ∈ F → pick x y ∈ F := by
      intro x y h
      rw [hpick]
      dsimp only
      split
      · next hxy => exact hxy
      · next hxy =>
          rcases h with h | h
          · exact absurd h hxy
          · exact h
    have hpick_pair : ∀ x y, pick x y = (x, y) ∨ pick x y = (y, x) := by
      intro x y
      rw [hpick]
      dsimp only
      split
      · exact Or.inl rfl
      · exact Or.inr rfl
    have hnbr_mem : ∀ x ∈ P2, nbr x ∈ g.nodeFinset \ A ∧
        ((x, nbr x) ∈ g.edges ∨ (nbr x, x) ∈ g.edges) := by
      intro x hx
      obtain ⟨y, hy, hadj⟩ := (Finset.mem_filter.mp hx).2
      have hne : ((g.nodeFinset \ A).filter
          (fun z => (x, z) ∈ g.edges ∨ (z, x) ∈ g.edges)).Nonempty :=
        ⟨y, Finset.mem_filter.mpr ⟨hy, hadj⟩⟩
      rw [hnbr]
      dsimp only
      rw [dif_pos hne]
      have hmem := Finset.min'_mem _ hne
      exact ⟨(Finset.mem_filter.mp hmem).1, (Finset.mem_filter.mp hmem).2⟩
    have hmaps : ∀ s ∈ S, φ s ∈ F := by
      intro s hs
      rw [hS, Finset.mem_union] at hs
      rcases hs with h1 | h2
      · have hsB := hP1B _ h1
        have hsA : s ∉ A := (Finset.mem_sdiff.mp hsB).2
        rw [hphi]
        dsimp only
        rw [if_neg hsA]
        exact hpick_mem _ _ (hkilled p hpA s hsB (Finset.mem_filter.mp h1).2)
      · have hsA : s ∈ A := (hP2A _ h2).1
        rw [hphi]
        dsimp only
        rw [if_pos hsA]
        obtain ⟨hynb, hyadj⟩ := hnbr_mem s h2
        exact hpick_mem _ _ (hkilled s hsA (nbr s) hynb hyadj)
    have hinj : Set.InjOn φ ↑S := by
      have hside : ∀ {x}, x ∈ A → x ∈ g.nodeFinset \ A → False :=
        fun hx hx' => (Finset.mem_sdiff.mp hx').2 hx
      intro s1 hs1 s2 hs2 heq
      rw [Finset.mem_coe, hS, Finset.mem_union] at hs1 hs2
      rcases hs1 with h1 | h1 <;> rcases hs2 with h2 | h2
      · -- both from P1
        have hs1A : s1 ∉ A := (Finset.mem_sdiff.mp (hP1B _ h1)).2
        have hs2A : s2 ∉ A := (Finset.mem_sdiff.mp (hP1B _ h2)).2
        rw [hphi] at heq
        dsimp only at heq
        rw [if_neg hs1A, if_neg hs2A] at heq
        rcases hpick_pair p s1 with e1 | e1 <;>
          rcases hpick_pair p s2 with e2 | e2 <;>
          rw [e1, e2, Prod.mk.injEq] at heq
        · exact heq.2
        · exact absurd (heq.1 ▸ hpA) hs2A
        · exact absurd (heq.1.symm ▸ hpA) hs1A
        · exact heq.1
      · -- s1 from P1, s2 from P2
        exfalso
        have hs1A : s1 ∉ A := (Finset.mem_sdiff.mp (hP1B _ h1)).2
        have hs2A : s2 ∈ A := (hP2A _ h2).1
        have hs2p : s2 ≠ p := (hP2A _ h2).2
        have hy2 := (hnbr_mem s2 h2).1
        rw [hphi] at heq
        dsimp only at heq
        rw [if_neg hs1A, if_pos hs2A] at heq
        rcases hpick_pair p s1 with e1 | e1 <;>
          rcases hpick_pair s2 (nbr s2) with e2 | e2 <;>
          rw [e1, e2, Prod.mk.injEq] at heq
        · exact hs2p heq.1.symm
        · exact hside hpA (heq.1 ▸ hy2)
        · refine hside hs2A ?_
          rw [← heq.1]
          exact hP1B _ h1
        · exact hs2p heq.2.symm
      · -- s1 from P2, s2 from P1
        exfalso
        have hs2A : s2 ∉ A := (Finset.mem_sdiff.mp (hP1B _ h2)).2
        have hs1A : s1 ∈ A := (hP2A _ h1).1
        have hs1p : s1 ≠ p := (hP2A _ h1).2
        have hy1 := (hnbr_mem s1 h1).1
        rw [hphi] at heq
        dsimp only at heq
        rw [if_pos hs1A, if_neg hs2A] at heq
        rcases hpick_pair s1 (nbr s1) with e1 | e1 <;>
          rcases hpick_pair p s2 with e2 | e2 <;>
          rw [e1, e2, Prod.mk.injEq] at heq
        · exact hs1p heq.1
        · refine hside hs1A ?_
          rw [heq.1]
          exact hP1B _ h2
        · exact hside hpA (heq.1.symm ▸ hy1)
        · exact hs1p heq.2
      · -- both from P2
        have hs1A : s1 ∈ A := (hP2A _ h1).1
        have hs2A : s2 ∈ A := (hP2A _ h2).1
        have hy1 := (hnbr_mem s1 h1).1
        have hy2 := (hnbr_mem s2 h2).1
        rw [hphi] at heq
        dsimp only at heq
        rw [if_pos hs1A, if_pos hs2A] at heq
        rcases hpick_pair s1 (nbr s1) with e1 | e1 <;>
          rcases hpick_pair s2 (nbr s2) with e2 | e2 <;>
          rw [e1, e2, Prod.mk.injEq] at heq
        · exact heq.1
        · exact absurd (heq.1 ▸ hs1A) (Finset.mem_sdiff.mp hy2).2
        · exact absurd (heq.1.symm ▸ hs2A) (Finset.mem_sdiff.mp hy1).2
        · exact heq.2
    exact Finset.card_le_card_of_injOn φ hmaps hinj
  · -- Case 2: every pair across the partition is adjacent
    push_neg at hcase
    have hkilled2 : ∀ u ∈ A, ∀ v ∈ g.nodeFinset \ A,
        (u, v) ∈ F ∨ (v, u) ∈ F :=
      fun u hu v hv => hkilled u hu v hv (hcase u hu v hv)
    have hcount := card_cross_le Finset.disjoint_sdiff hkilled2
    rw [Finset.card_product, Finset.card_sdiff hAsub] at hcount
    have hBne : (g.nodeFinset \ A).Nonempty :=
      ⟨b, Finset.mem_sdiff.mpr ⟨hb, hbA⟩⟩
    have hB1 : 1 ≤ g.nodeFinset.card - A.card := by
      have := Finset.card_pos.mpr hBne
      rwa [Finset.card_sdiff hAsub] at this
    have hA1 : 1 ≤ A.card := Finset.card_pos.mpr ⟨a, haA⟩
    have hAle := Finset.card_le_card hAsub
    have hprod := mul_ge_add_sub_one hA1 hB1
    have hk := kappa_le_card_sub_one hVne
    omega

end PyGraph

namespace GraphConnectivityAnalyzer

open PyGraph

theorem is_connected_ok_true {g : PyGraph} (hd : g.directed = false)
    (h0 : ¬ g.nodes.length = 0) (hconn : connOn g g.nodeFinset ∅) :
    nx.is_connected g = .ok true := by
  rw [nx.is_connected, if_neg (by rw [hd]; exact Bool.false_ne_true),
    if_neg h0, decide_eq_true hconn]

/-- For a connected undirected graph on at least two vertices the real
`node_connectivity` reaches the nonexistent `nx.is_complete_graph`,
swallows the resulting `AttributeError` and returns 0, caching
nothing (the analyzer state is unchanged). -/
theorem node_value_zero {g : PyGraph} (hd : g.directed = false)
    (h2 : 2 ≤ g.nodes.length) (hconn : connOn g g.nodeFinset ∅) :
    node_connectivity (init (some g)) = (0, init (some g)) := by
  have h0 : ¬ g.nodes.length = 0 := by omega
  have hle1 : ¬ g.number_of_nodes ≤ 1 := by
    simp only [number_of_nodes]
    omega
  have hic := is_connected_ok_true hd h0 hconn
  have hncc : nodeConnCompute g = .error .attributeError := by
    rw [nodeConnCompute, if_neg hle1, hic]
    rfl
  rw [node_connectivity_eq]
  simp only [init, nodeStep, h0, if_false]
  rw [hncc]

/-- For a connected undirected graph on at least two vertices the value
`edge_connectivity` returns is exactly λ(G). -/
theorem edge_value_eq_lambda {g : PyGraph} (hd : g.directed = false)
    (h2 : 2 ≤ g.nodes.length) (hconn : connOn g g.nodeFinset ∅) :
    (edge_connectivity (init (some g))).1 = lambda g := by
  have h0 : ¬ g.nodes.length = 0 := by omega
  have hle1 : ¬ g.number_of_nodes ≤ 1 := by
    simp only [number_of_nodes]
    omega
  have hic := is_connected_ok_true hd h0 hconn
  have hecc : edgeConnCompute g = .ok (lambda g) := by
    rw [edgeConnCompute, if_neg hle1, hic]
    rfl
  rw [edge_connectivity_eq]
  simp only [init, edgeStep, h0, if_false]
  rw [hecc]

end GraphConnectivityAnalyzer

open PyGraph GraphConnectivityAnalyzer

/-- C10.  With no graph loaded the analyzer resolves every query to its
default: the analysis returns the empty dictionary, the connectivity
numbers are 0, the cuts are empty, and no exception escapes. -/
theorem claim10_no_graph_defaults (c1 c2 : Option Nat) (cr : Option KReport)
    (mk : Option Nat) :
    k_connectivity_analysis ⟨none, c1, c2, cr⟩ mk = .ok (none, ⟨none, c1, c2, cr⟩) ∧
    node_connectivity ⟨none, c1, c2, cr⟩ = (0, ⟨none, c1, c2, cr⟩) ∧
    edge_connectivity ⟨none, c1, c2, cr⟩ = (0, ⟨none, c1, c2, cr⟩) ∧
    minimum_node_cut ⟨none, c1, c2, cr⟩ = .ok ∅ ∧
    minimum_edge_cut ⟨none, c1, c2, cr⟩ = .ok ∅ :=
  ⟨rfl, rfl, rfl, rfl, rfl⟩

/-- C4.  The cache is not invalidated by `create_graph_from_edges`: an
analyzer that computed λ = 1 on the two-vertex connected graph (the
`edge_connectivity` key is genuinely cached, unlike the
`node_connectivity` key whose computation dies on the nonexistent
`nx.is_complete_graph`), then replaced its graph by the disconnected
graph on `{1,2,3,4}`, still reports λ = 1 from the stale cache, while
a fresh analyzer on the same graph reports 0. -/
theorem claim4_cache_not_invalidated :
    (edge_connectivity
        ((create_graph_from_edges
            (edge_connectivity (init (some (buildGraph [(1, 2)] false)))).2
            [(1, 2), (3, 4)] false).2)).1 = 1 ∧
    (edge_connectivity (init (some (buildGraph [(1, 2), (3, 4)] false)))).1 = 0 := by
  decide

/-- C7 counterexample.  `create_graph_from_edges` applied to the single
edge `(1, 1)` raises nothing (it returns `True`) and the built graph
contains the self-loop `(1, 1)`. -/
theorem claim7_counterexample :
    (create_graph_from_edges (init none) [(1, 1)] false).1 = true ∧
    (create_graph_from_edges (init none) [(1, 1)] false).2.graph
      = some (buildGraph [(1, 1)] false) ∧
    (1, 1) ∈ (buildGraph [(1, 1)] false).edges := by
  decide

/-- C7 amended.  `create_graph_from_edges` never fails: duplicate edges
are silently merged (the edge list of the built graph has no duplicate,
and under either orientation in the undirected case), and self-loops
are silently accepted rather than rejected. -/
theorem claim7_set_semantics (a : GraphConnectivityAnalyzer)
    (es : List (Nat × Nat)) (d : Bool) :
    (create_graph_from_edges a es d).1 = true ∧
    (create_graph_from_edges a es d).2.graph = some (buildGraph es d) ∧
    (buildGraph es d).edges.Nodup ∧
    (d = false → ∀ e ∈ (buildGraph es d).edges,
      (e.2, e.1) ∈ (buildGraph es d).edges → e.1 = e.2) := by
  have hwf := buildGraph_wf es d
  refine ⟨rfl, rfl, hwf.2.2.1, fun hd => ?_⟩
  exact hwf.2.2.2 (by rw [buildGraph_directed]; exact hd)

/-- C8 counterexample.  The directed graph with the single arc `1 → 2`
is weakly connected, yet `nx.is_connected` raises on it, the analyzer
assigns it node connectivity 0, and `k_connectivity_analysis`
propagates the exception. -/
theorem claim8_counterexample :
    connOn (buildGraph [(1, 2)] true) (buildGraph [(1, 2)] true).nodeFinset ∅ ∧
    nx.is_connected (buildGraph [(1, 2)] true) = .error .notImplementedForDirected ∧
    (node_connectivity (init (some (buildGraph [(1, 2)] true)))).1 = 0 ∧
    k_connectivity_analysis (init (some (buildGraph [(1, 2)] true))) none
      = .error .notImplementedForDirected := by
  constructor
  · decide
  · exact ⟨rfl, by decide, rfl⟩

/-- C8 amended.  The connectedness test the analysis uses is
`nx.is_connected`, which raises `NetworkXNotImplemented` on every
directed graph instead of deciding weak connectivity; consequently
`node_connectivity` and `edge_connectivity` on a fresh analyzer return
0 for every nonempty directed graph (weakly connected or not), and
`k_connectivity_analysis` propagates the exception. -/
theorem claim8_directed_raises (g : PyGraph) (mk : Option Nat)
    (hd : g.directed = true) (hn : g.nodes ≠ []) :
    nx.is_connected g = .error .notImplementedForDirected ∧
    (node_connectivity (init (some g))).1 = 0 ∧
    (edge_connectivity (init (some g))).1 = 0 ∧
    k_connectivity_analysis (init (some g)) mk
      = .error .notImplementedForDirected := by
  have hc : nx.is_connected g = .error .notImplementedForDirected := by
    simp [nx.is_connected, hd]
  have h0 : ¬ g.nodes.length = 0 := by
    simpa [List.length_eq_zero] using hn
  have hfalsy : graphFalsy ⟨some g, none, none, none⟩ = false := by
    simp [graphFalsy, h0]
  have hcc : nodeConnCompute g
      = if g.number_of_nodes ≤ 1 then .ok 0
        else .error .notImplementedForDirected := by
    rw [nodeConnCompute, hc]
  have hce : edgeConnCompute g
      = if g.number_of_nodes ≤ 1 then .ok 0
        else .error .notImplementedForDirected := by
    rw [edgeConnCompute, hc]
  refine ⟨hc, ?_, ?_, ?_⟩
  · rw [node_connectivity_eq]
    simp only [init, nodeStep, h0, if_false]
    rw [hcc]
    by_cases hle : g.number_of_nodes ≤ 1 <;> simp [hle]
  · rw [edge_connectivity_eq]
    simp only [init, edgeStep, h0, if_false]
    rw [hce]
    by_cases hle : g.number_of_nodes ≤ 1 <;> simp [hle]
  · rw [k_connectivity_analysis]
    simp only [hfalsy, Bool.false_eq_true, if_false, init, hc]

theorem nx_minimum_node_cut_subset (g : PyGraph) :
    nx.minimum_node_cut g ⊆ g.nodeFinset := by
  unfold nx.minimum_node_cut
  cases hf : (g.nodes.sublists.map List.toFinset).find?
      (fun S => decide (S.card = kappa g ∧ ¬ connOn g (g.nodeFinset \ S) ∅)) with
  | none => exact Finset.empty_subset _
  | some S =>
    obtain ⟨l, hl, rfl⟩ := List.mem_map.mp (List.mem_of_find?_eq_some hf)
    intro x hx
    exact List.mem_toFinset.mpr
      ((List.mem_sublists.mp hl).subset (List.mem_toFinset.mp hx))

theorem nx_minimum_edge_cut_subset (g : PyGraph) :
    nx.minimum_edge_cut g ⊆ g.edgeFinset := by
  unfold nx.minimum_edge_cut
  cases hf : (g.edges.sublists.map List.toFinset).find?
      (fun F => decide (F.card = lambda g ∧ ¬ connOn g g.nodeFinset F)) with
  | none => exact Finset.empty_subset _
  | some F =>
    obtain ⟨l, hl, rfl⟩ := List.mem_map.mp (List.mem_of_find?_eq_some hf)
    intro x hx
    exact List.mem_toFinset.mpr
      ((List.mem_sublists.mp hl).subset (List.mem_toFinset.mp hx))

/-- C9.  Whatever set either cut method returns is drawn from the
loaded graph: the node cut holds only vertex identifiers of the graph
and the edge cut only stored edges of the graph. -/
theorem claim9_cut_membership (a : GraphConnectivityAnalyzer) (g : PyGraph)
    (hg : a.graph = some g) :
    (∀ S, minimum_node_cut a = .ok S → S ⊆ g.nodeFinset) ∧
    (∀ F, minimum_edge_cut a = .ok F → F ⊆ g.edgeFinset) := by
  rw [minimum_node_cut_eq, minimum_edge_cut_eq, hg]
  constructor
  · intro S hS
    simp only [nodeCutResult] at hS
    split at hS
    · rw [Except.ok.injEq] at hS
      exact hS ▸ Finset.empty_subset _
    · split at hS
      · exact absurd hS (by simp)
      · split at hS
        · rw [Except.ok.injEq] at hS
          exact hS ▸ Finset.empty_subset _
        · split at hS
          · rw [Except.ok.injEq] at hS
            exact hS ▸ Finset.empty_subset _
          · split at hS
            · rw [Except.ok.injEq] at hS
              subst hS
              intro x hx
              exact List.mem_toFinset.mpr
                ((List.dropLast_sublist _).subset (List.mem_toFinset.mp hx))
            · rw [Except.ok.injEq] at hS
              exact hS ▸ nx_minimum_node_cut_subset g
  · intro F hF
    simp only [edgeCutResult] at hF
    split at hF
    · rw [Except.ok.injEq] at hF
      exact hF ▸ Finset.empty_subset _
    · split at hF
      · exact absurd hF (by simp)
      · split at hF
        · rw [Except.ok.injEq] at hF
          exact hF ▸ Finset.empty_subset _
        · rw [Except.ok.injEq] at hF
          exact hF ▸ nx_minimum_edge_cut_subset g

/-- C9 witness: the path graph `1 - 2 - 3`, whose node cut is `{2}` and
edge cut a single stored edge. -/
theorem claim9_witness :
    (∀ S, minimum_node_cut (init (some (buildGraph [(1, 2), (2, 3)] false)))
        = .ok S → S ⊆ (buildGraph [(1, 2), (2, 3)] false).nodeFinset) ∧
    (∀ F, minimum_edge_cut (init (some (buildGraph [(1, 2), (2, 3)] false)))
        = .ok F → F ⊆ (buildGraph [(1, 2), (2, 3)] false).edgeFinset) :=
  claim9_cut_membership (init (some (buildGraph [(1, 2), (2, 3)] false)))
    (buildGraph [(1, 2), (2, 3)] false) rfl

theorem map_fst_mk_eq {α β : Type _} (f : α → β) (l : List α) :
    (l.map (fun k => (k, f k))).map Prod.fst = l := by
  induction l with
  | nil => rfl
  | cons x xs ih => simp only [List.map_cons, ih]

theorem k_connectivity_analysis_error (a : GraphConnectivityAnalyzer)
    (g : PyGraph) (mk : Option Nat) (e : NxErr)
    (hg : a.graph = some g) (h0 : ¬ g.nodes.length = 0)
    (hc : nx.is_connected g = .error e) :
    k_connectivity_analysis a mk = .error e := by
  rcases a with ⟨og, cn, ce, cr⟩
  cases hg
  have hfalsy : graphFalsy ⟨some g, cn, ce, cr⟩ = false := by
    simp [graphFalsy, h0]
  rw [k_connectivity_analysis]
  simp only [hfalsy, Bool.false_eq_true, if_false, hc]

/-- C1 counterexample.  On the complete graph with the two vertices
`1, 2` and `max_k = 2`, the produced `k_analysis` table has entries for
`k = 1` only: there is no entry for `k = 2`, although `2 ≤ min(max_k,
vertex count)`. -/
theorem claim1_counterexample :
    (k_connectivity_analysis (init (some (buildGraph [(1, 2)] false)))
        (some 2)).map
      (fun p => p.1.map (fun r => (r.nodes, r.k_analysis.map Prod.fst)))
      = .ok (some (2, [1])) := by
  decide

/-- C1 amended.  Whenever `k_connectivity_analysis` returns a report,
the per-k table has exactly the keys `1, …, min(max_k, n−1)` (the key
`n` is never produced because the loop is `range(1, min(max_k + 1,
n))`), and every produced entry satisfies `k_node_connected = (k ≤ κ)`
and `k_edge_connected = (k ≤ λ)` for the κ and λ stored in the same
report (the values `node_connectivity` and `edge_connectivity`
returned during this call). -/
theorem claim1_k_table (a : GraphConnectivityAnalyzer) (g : PyGraph)
    (mk : Option Nat) (r : KReport) (a' : GraphConnectivityAnalyzer)
    (hg : a.graph = some g)
    (h : k_connectivity_analysis a mk = .ok (some r, a')) :
    r.k_analysis.map Prod.fst
      = List.range' 1
          (min (mk.getD g.number_of_nodes + 1) g.number_of_nodes - 1) ∧
    ∀ k e, (k, e) ∈ r.k_analysis →
      e.k_node_connected = decide (k ≤ r.node_connectivity) ∧
      e.k_edge_connected = decide (k ≤ r.edge_connectivity) := by
  by_cases h0 : g.nodes.length = 0
  · rcases a with ⟨og, cn, ce, cr⟩
    cases hg
    have hfalsy : graphFalsy ⟨some g, cn, ce, cr⟩ = true := by
      simp [graphFalsy, h0]
    rw [k_connectivity_analysis] at h
    rw [hfalsy] at h
    exact absurd h (by simp)
  · cases hc : nx.is_connected g with
    | error e =>
      rw [k_connectivity_analysis_error a g mk e hg h0 hc] at h
      exact absurd h (by simp)
    | ok conn =>
      rw [k_connectivity_analysis_ok a g mk conn hg h0 hc] at h
      rw [Except.ok.injEq, Prod.mk.injEq, Option.some.injEq] at h
      obtain ⟨rfl, -⟩ := h
      constructor
      · exact map_fst_mk_eq _ _
      · intro k e hmem
        obtain ⟨k', -, heq⟩ := List.mem_map.mp hmem
        rw [Prod.mk.injEq] at heq
        obtain ⟨rfl, rfl⟩ := heq
        exact ⟨rfl, rfl⟩

/-- C1 witness: the complete graph on `{1, 2}` with `max_k = 2`. -/
theorem claim1_witness :
    ((k_connectivity_analysis (init (some (buildGraph [(1, 2)] false)))
        (some 2)).toOption.elim True (fun p => p.1.elim True (fun r =>
      r.k_analysis.map Prod.fst
        = List.range' 1
            (min ((some 2 : Option Nat).getD
                (buildGraph [(1, 2)] false).number_of_nodes + 1)
              (buildGraph [(1, 2)] false).number_of_nodes - 1) ∧
      ∀ k e, (k, e) ∈ r.k_analysis →
        e.k_node_connected = decide (k ≤ r.node_connectivity) ∧
        e.k_edge_connected = decide (k ≤ r.edge_connectivity)))) := by
  have h := claim1_k_table (init (some (buildGraph [(1, 2)] false)))
    (buildGraph [(1, 2)] false) (some 2)
  cases hk : k_connectivity_analysis (init (some (buildGraph [(1, 2)] false)))
      (some 2) with
  | error e => exact trivial
  | ok p =>
    cases hp : p.1 with
    | none =>
      simp only [Except.toOption, Option.elim, hp]
    | some r =>
      have h2 : k_connectivity_analysis (init (some (buildGraph [(1, 2)] false)))
          (some 2) = .ok (some r, p.2) := by
        rw [hk, ← hp]
      have h3 := h r p.2 rfl h2
      simp only [Except.toOption, Option.elim, hp]
      exact h3

/-- C6.  Calling `k_connectivity_analysis` twice with the same `max_k`
and no mutation in between returns the same result pair: the second
call reproduces the first call's report and leaves the state fixed. -/
theorem claim6_idempotent (a : GraphConnectivityAnalyzer) (mk : Option Nat)
    (res : Option KReport × GraphConnectivityAnalyzer)
    (h : k_connectivity_analysis a mk = .ok res) :
    k_connectivity_analysis res.2 mk = .ok res := by
  rcases a with ⟨og, cn, ce, cr⟩
  cases og with
  | none =>
    have hk : k_connectivity_analysis ⟨none, cn, ce, cr⟩ mk
        = .ok (none, ⟨none, cn, ce, cr⟩) := rfl
    rw [hk, Except.ok.injEq] at h
    subst h
    exact hk
  | some g =>
    by_cases h0 : g.nodes.length = 0
    · have hfalsy : graphFalsy ⟨some g, cn, ce, cr⟩ = true := by
        simp [graphFalsy, h0]
      have hk : k_connectivity_analysis ⟨some g, cn, ce, cr⟩ mk
          = .ok (none, ⟨some g, cn, ce, cr⟩) := by
        rw [k_connectivity_analysis, hfalsy]
        rfl
      rw [hk, Except.ok.injEq] at h
      subst h
      exact hk
    · cases hc : nx.is_connected g with
      | error e =>
        rw [k_connectivity_analysis_error ⟨some g, cn, ce, cr⟩ g mk e rfl h0 hc]
          at h
        exact absurd h (by simp)
      | ok conn =>
        rw [k_connectivity_analysis_ok ⟨some g, cn, ce, cr⟩ g mk conn rfl h0 hc]
          at h
        rw [Except.ok.injEq] at h
        subst h
        rw [k_connectivity_analysis_ok _ g mk conn rfl h0 hc]
        simp only [analysisOutcome, nodeStep_idem, edgeStep_idem]

/-- C6 witness: the one-vertex graph, analyzed twice. -/
theorem claim6_witness :
    k_connectivity_analysis
        ⟨some ⟨false, [1], []⟩, some 0, some 0,
         some ⟨1, 0, true, false, 0, 0, [], [], []⟩⟩ none
      = .ok (some ⟨1, 0, true, false, 0, 0, [], [], []⟩,
             ⟨some ⟨false, [1], []⟩, some 0, some 0,
              some ⟨1, 0, true, false, 0, 0, [], [], []⟩⟩) :=
  claim6_idempotent ⟨some ⟨false, [1], []⟩, none, none, none⟩ none
    (some ⟨1, 0, true, false, 0, 0, [], [], []⟩,
     ⟨some ⟨false, [1], []⟩, some 0, some 0,
      some ⟨1, 0, true, false, 0, 0, [], [], []⟩⟩) (by decide)

/-- C3 (evidence of the defect).  On a complete undirected graph with
n ≥ 2 vertices the analyzer is specified to report κ = λ = n − 1 and
the synthesized node cut `set(nodes[:-1])`, but the fast-path test
`nx.is_complete_graph` does not exist in networkx: the resulting
`AttributeError` is swallowed by the `except` blocks, so
`node_connectivity` returns 0 (and caches nothing — the state is
unchanged) and `minimum_node_cut` returns the empty set.  Only
`edge_connectivity`, which has no fast path, really returns n − 1
(λ of a complete graph, by its general flow computation). -/
theorem claim3_complete_graph (g : PyGraph) (hWF : WF g)
    (hd : g.directed = false) (hc : completeP g)
    (h2 : 2 ≤ g.number_of_nodes) :
    node_connectivity (init (some g)) = (0, init (some g)) ∧
    (edge_connectivity (init (some g))).1 = g.number_of_nodes - 1 ∧
    minimum_node_cut (init (some g)) = .ok ∅ := by
  have hlen : g.number_of_nodes = g.nodes.length := rfl
  have hcard : g.nodeFinset.card = g.nodes.length := wf_card_nodes hWF
  have h0 : ¬ g.nodes.length = 0 := by omega
  have hle1 : ¬ g.number_of_nodes ≤ 1 := by omega
  have h2' : 2 ≤ g.nodeFinset.card := by omega
  have hconn : connOn g g.nodeFinset ∅ :=
    complete_connOn hc subset_rfl (Finset.card_pos.mp (by omega))
  have hic : nx.is_connected g = .ok true := is_connected_ok_true hd h0 hconn
  have hecc : edgeConnCompute g = .ok (g.number_of_nodes - 1) := by
    rw [edgeConnCompute, if_neg hle1, hic]
    simp only [Bool.not_true, Bool.false_eq_true, if_false]
    rw [nx.edge_connectivity, lambda_complete hWF hd hc h2', hcard, hlen]
  refine ⟨node_value_zero hd (by omega) hconn, ?_, ?_⟩
  · rw [edge_connectivity_eq]
    simp [init, edgeStep, h0, hecc]
  · rw [minimum_node_cut_eq]
    simp only [init, nodeCutResult, h0, if_false, hic]
    rfl

/-- C3 witness: the complete graph on `{1, 2}` (the claim's failing
input: the program returns κ = 0 and an empty node cut there, while
λ = 1 = n − 1 is genuine). -/
theorem claim3_witness :
    node_connectivity (init (some (buildGraph [(1, 2)] false)))
      = (0, init (some (buildGraph [(1, 2)] false))) ∧
    (edge_connectivity (init (some (buildGraph [(1, 2)] false)))).1
      = (buildGraph [(1, 2)] false).number_of_nodes - 1 ∧
    minimum_node_cut (init (some (buildGraph [(1, 2)] false))) = .ok ∅ :=
  claim3_complete_graph (buildGraph [(1, 2)] false) (buildGraph_wf _ _)
    (by decide) (by decide) (by decide)

/-- C5.  For every well-formed connected simple undirected graph with
at least two vertices, the returned values satisfy
`node_connectivity ≤ edge_connectivity ≤ minimum degree`.  The
returned node value is in fact always 0 (the `AttributeError` from the
nonexistent `nx.is_complete_graph` is swallowed), so the first
inequality is trivial; the substantive half is λ(G) ≤ δ(G), proved as
`lambda_le_minDegree`, together with `edge_connectivity` really
returning λ(G). -/
theorem claim5_whitney (g : PyGraph) (hWF : WF g)
    (hd : g.directed = false) (hsimple : ∀ e ∈ g.edges, e.1 ≠ e.2)
    (h2 : 2 ≤ g.number_of_nodes) (hconn : connOn g g.nodeFinset ∅) :
    (node_connectivity (init (some g))).1
      ≤ (edge_connectivity (init (some g))).1 ∧
    (edge_connectivity (init (some g))).1 ≤ minDegree g := by
  have h2l : 2 ≤ g.nodes.length := h2
  have h2' : 2 ≤ g.nodeFinset.card := by
    rw [wf_card_nodes hWF]
    exact h2l
  rw [node_value_zero hd h2l hconn, edge_value_eq_lambda hd h2l hconn]
  exact ⟨Nat.zero_le _, lambda_le_minDegree hWF hd hsimple h2'⟩

/-- C5 witness: the path graph `1 - 2 - 3` (κ = λ = δ = 1). -/
theorem claim5_witness :
    (node_connectivity (init (some (buildGraph [(1, 2), (2, 3)] false)))).1
      ≤ (edge_connectivity (init (some (buildGraph [(1, 2), (2, 3)] false)))).1 ∧
    (edge_connectivity (init (some (buildGraph [(1, 2), (2, 3)] false)))).1
      ≤ minDegree (buildGraph [(1, 2), (2, 3)] false) :=
  claim5_whitney (buildGraph [(1, 2), (2, 3)] false) (buildGraph_wf _ _)
    (by decide) (by decide) (by decide) (by decide)

/-- C8 witness: the directed graph with the single arc `1 → 2`. -/
theorem claim8_witness :
    nx.is_connected (buildGraph [(1, 2)] true)
      = .error .notImplementedForDirected ∧
    (node_connectivity (init (some (buildGraph [(1, 2)] true)))).1 = 0 ∧
    (edge_connectivity (init (some (buildGraph [(1, 2)] true)))).1 = 0 ∧
    k_connectivity_analysis (init (some (buildGraph [(1, 2)] true))) none
      = .error .notImplementedForDirected :=
  claim8_directed_raises (buildGraph [(1, 2)] true) none (by decide) (by decide)

end Graphe5
